import Mathlib

/-!
Verification of the citation validation and span-alignment engine of the
rag_dataset_generator repository.  The Python sources are embedded shallowly:
strings become `List Char`, the stdlib string operations used by the code
(`str.split`, `' '.join`, `str.lower`, `str.find`, `str.strip`, slicing,
`str.replace`, `re.split` on the ellipsis patterns, and the whitespace
flexible pattern built by `re.escape`/`re.sub`) are modelled by executable
Lean functions, and the two entry points `validate_citation`
(src/generator.py) and the locator/assembler inside `create_highlighted_html`
(src/gui_backend.py) are translated on top of them.

Case operations are modelled at the ASCII level (as `str.upper`/`str.lower`
behave on ASCII text); whitespace is the standard six-character class used by
`str.split`/`str.isspace` on ASCII text.
-/

/-- The whitespace class recognised by Python `str.split` / `str.isspace`
(space, tab, newline, carriage return, vertical tab, form feed). -/
def pyIsSpace (c : Char) : Bool :=
  c = ' ' || c = '\t' || c = '\n' || c = '\r' || c = '\x0b' || c = '\x0c'

/-- ASCII model of Python `str.lower`, applied characterwise. -/
def pyLower (c : Char) : Char :=
  if h : 65 ≤ c.toNat ∧ c.toNat ≤ 90 then
    ⟨⟨⟨c.toNat + 32, by omega⟩⟩, Or.inl (show c.toNat + 32 < 55296 by omega)⟩
  else c

/-- ASCII model of Python `str.upper`, applied characterwise. -/
def pyUpper (c : Char) : Char :=
  if h : 97 ≤ c.toNat ∧ c.toNat ≤ 122 then
    ⟨⟨⟨c.toNat - 32, by omega⟩⟩, Or.inl (show c.toNat - 32 < 55296 by omega)⟩
  else c

/-- ASCII uppercase test (used to state that normalised text has no
uppercase letters). -/
def pyIsUpperB (c : Char) : Bool :=
  decide (65 ≤ c.toNat) && decide (c.toNat ≤ 90)

/-- String literal to character list. -/
def toL (s : String) : List Char := s.toList

/-- Python `haystack.find(needle)`: index of the first occurrence, `none`
for Python's `-1`.  (`''.find` style edge: the empty needle is found at 0.) -/
def pyFind (needle : List Char) : List Char → Option Nat
  | [] => if needle.isPrefixOf [] then some 0 else none
  | c :: cs =>
    if needle.isPrefixOf (c :: cs) then some 0
    else (pyFind needle cs).map (· + 1)

/-- Python `haystack.find(needle, start)` for a nonnegative `start`:
searches `haystack[start:]` and reports an absolute index; a start beyond
the end of the string finds nothing (as in Python). -/
def pyFindFrom (needle hay : List Char) (start : Nat) : Option Nat :=
  if start ≤ hay.length then (pyFind needle (hay.drop start)).map (· + start)
  else none

/-- Python `needle in hay` (substring containment). -/
def pyContains (needle hay : List Char) : Bool := (pyFind needle hay).isSome

/-- Python `text.split()`: split on whitespace runs, dropping empty pieces. -/
def pySplit : List Char → List (List Char)
  | [] => []
  | c :: cs =>
    if pyIsSpace c then pySplit cs
    else
      match cs, pySplit cs with
      | [], _ => [[c]]
      | d :: _, r =>
        if pyIsSpace d then [c] :: r
        else
          match r with
          | [] => [[c]]
          | w :: ws => (c :: w) :: ws

/-- Python `' '.join(words)`. -/
def joinSp : List (List Char) → List Char
  | [] => []
  | [w] => w
  | w :: ws => w ++ ' ' :: joinSp ws

/-- The gui_backend normaliser: `' '.join(text.split())` (no lowercasing). -/
def normB (t : List Char) : List Char := joinSp (pySplit t)

/-- The generator normaliser: `' '.join(text.split()).lower()`. -/
def normG (t : List Char) : List Char := (normB t).map pyLower

/-- Python `text.strip()`. -/
def pyStrip (t : List Char) : List Char :=
  ((t.dropWhile pyIsSpace).reverse.dropWhile pyIsSpace).reverse

/-! ## The validator (src/generator.py, `validate_citation`) -/

/-- Splitting a list on a literal separator (greedy, leftmost,
non-overlapping), with fuel for structural recursion; called with fuel
`t.length` it computes Python `t.split(sep)` for a non-empty `sep`. -/
def splitOnSepF (sep : List Char) : Nat → List Char → List (List Char)
  | _, [] => [[]]
  | 0, t => [t]
  | f + 1, c :: cs =>
    if sep ≠ [] ∧ sep.isPrefixOf (c :: cs) then
      [] :: splitOnSepF sep f ((c :: cs).drop sep.length)
    else
      match splitOnSepF sep f cs with
      | [] => [[c]]
      | r :: rs => (c :: r) :: rs

/-- Python `t.split(sep)` for non-empty `sep`.

The code applies `re.split` with the patterns `\s*\.\.\.\s*`, `\s*…\s*`,
`\s*\[\.\.\.\]\s*`, `\s*\[…\]\s*` to the already normalised citation.  On
such input every separator match consists of the literal marker plus
adjacent whitespace, so the pieces of `re.split` agree with the pieces of a
plain split on the literal marker up to surrounding whitespace, and the code
strips every piece immediately afterwards; the piece count is also the same.
We therefore model `re.split(pattern, nc)` as `splitOnSep marker nc`
followed by the code's own strip-and-filter step. -/
def splitOnSep (sep t : List Char) : List (List Char) :=
  splitOnSepF sep t.length t

/-- `[p.strip() for p in parts if p.strip()]`. -/
def stripParts (parts : List (List Char)) : List (List Char) :=
  (parts.map pyStrip).filter (· ≠ [])

/-- The literal markers of the four ellipsis patterns, in source order. -/
def elidedSeps : List (List Char) :=
  [['.', '.', '.'], ['…'], ['[', '.', '.', '.', ']'], ['[', '…', ']']]

/-- The in-order part search: `pos = normalized_doc.find(part, last_pos + 1)`
starting from `last_pos = -1`, i.e. an initial search floor of 0. -/
def findPartsFrom (doc : List Char) (start : Nat) : List (List Char) → Bool
  | [] => true
  | p :: ps =>
    match pyFindFrom p doc start with
    | none => false
    | some pos => findPartsFrom doc (pos + 1) ps

/-- Like `findPartsFrom` but returning the found positions. -/
def findPartsPos (doc : List Char) (start : Nat) : List (List Char) → Option (List Nat)
  | [] => some []
  | p :: ps =>
    match pyFindFrom p doc start with
    | none => none
    | some pos => (findPartsPos doc (pos + 1) ps).map (pos :: ·)

/-- The `for pattern in ellipsis_patterns` loop of `validate_citation`:
a pattern that does not split into more than one part is skipped; a pattern
whose parts are all empty after stripping returns false at once; a pattern
whose parts are found in order returns true; otherwise the loop continues
with the next pattern, and false is returned after the last one. -/
def elidedLoop (nd nc : List Char) : List (List Char) → Bool
  | [] => false
  | sep :: rest =>
    let parts := splitOnSep sep nc
    if 1 < parts.length then
      let parts := stripParts parts
      if parts = [] then false
      else if findPartsFrom nd 0 parts then true
      else elidedLoop nd nc rest
    else elidedLoop nd nc rest

/-- `validate_citation` on already normalised inputs: exact containment
first, then the ellipsis loop. -/
def validateOnNorm (nc nd : List Char) : Bool :=
  if pyContains nc nd then true else elidedLoop nd nc elidedSeps

/-- `QACitationGenerator.validate_citation` (src/generator.py, lines 74-131). -/
def validate_citation (citation document : List Char) : Bool :=
  validateOnNorm (normG citation) (normG document)

/-- `validate_citation` at the call boundary: a `None` document makes
`document_content.split()` raise, every string document yields a boolean. -/
def validate_citation_opt (citation : List Char) :
    Option (List Char) → Except String Bool
  | none => .error "AttributeError: NoneType has no attribute split"
  | some d => .ok (validate_citation citation d)

/-! ## The locator (src/gui_backend.py, `create_highlighted_html`) -/

/-- A token of the Tier-2 pattern built by
`re.sub(r'\\\s+', r'\\s+', re.escape(citation))`: `re.escape` makes every
citation character a literal and puts a backslash before each whitespace
character, so the substitution rewrites every single escaped whitespace
character into one `\s+` atom.  A citation character is thus either a
literal or a one-or-more-whitespace atom. -/
inductive Tok
  | lit (c : Char)
  | wsPlus
deriving DecidableEq

/-- Tier-2 pattern of a citation. -/
def tokens (citation : List Char) : List Tok :=
  citation.map fun c => if pyIsSpace c then Tok.wsPlus else Tok.lit c

/-- Is a token the one-or-more-whitespace atom? -/
def Tok.isWs : Tok → Bool
  | .wsPlus => true
  | .lit _ => false

/-- Matching the Tier-2 pattern against the beginning of `s`, returning the
number of characters consumed.  A maximal group of `k` consecutive `\s+`
atoms followed by a literal (or the pattern end) matches exactly the maximal
leading whitespace run of `s` when that run has length at least `k` (regex
greediness with backtracking); this is realised one atom at a time: an atom
followed by another `\s+` atom takes one whitespace character, the last atom
of a group takes the rest of the run. -/
def matchToks : List Tok → List Char → Option Nat
  | [], _ => some 0
  | .lit _ :: _, [] => none
  | .lit c :: ts, x :: xs =>
    if x = c then (matchToks ts xs).map (· + 1) else none
  | .wsPlus :: ts, s =>
    match s with
    | [] => none
    | x :: xs =>
      if pyIsSpace x then
        match ts with
        | .wsPlus :: _ => (matchToks ts xs).map (· + 1)
        | _ =>
          let r := 1 + (xs.takeWhile pyIsSpace).length
          (matchToks ts (s.drop r)).map (· + r)
      else none

/-- `re.search`: the leftmost start position where the pattern matches,
with the match extent (the empty pattern matches at the end position too,
as in Python). -/
def tier2Aux (toks : List Tok) : List Char → Nat → Option (Nat × Nat)
  | [], p => (matchToks toks []).map (fun n => (p, p + n))
  | c :: xs, p =>
    match matchToks toks (c :: xs) with
    | some n => some (p, p + n)
    | none => tier2Aux toks xs (p + 1)

/-- Tier 2 of the locator: whitespace-flexible regex search
(gui_backend.py lines 471-485). -/
def tier2 (citation doc : List Char) : Option (Nat × Nat) :=
  tier2Aux (tokens citation) doc 0

/-- `char.isspace() and i > 0 and not doc[i - 1].isspace()` with the
predecessor passed along (`none` encodes `i = 0`). -/
def isBoundary (prev : Option Char) (c : Char) : Bool :=
  pyIsSpace c && (match prev with | some p => !pyIsSpace p | none => false)

/-- The Tier-3 start scan (gui_backend.py lines 500-507): walk the original
document; at each word boundary increment the count, and stop at the first
boundary where the count reaches `target`; if the loop never stops,
`char_pos` keeps its initial value 0. -/
def t3StartAux (target : Nat) : List Char → Option Char → Nat → Nat → Nat
  | [], _, _, _ => 0
  | c :: cs, prev, i, wc =>
    if isBoundary prev c then
      if target ≤ wc + 1 then i
      else t3StartAux target cs (some c) (i + 1) (wc + 1)
    else t3StartAux target cs (some c) (i + 1) wc

/-- `char_pos` of Tier 3. -/
def t3Start (doc : List Char) (target : Nat) : Nat :=
  t3StartAux target doc none 0 0

/-- The Tier-3 end scan (gui_backend.py lines 509-519): starting from
`char_pos`, count further word boundaries (a whitespace character at
`i > char_pos` whose predecessor is not whitespace) and stop when the count
reaches `cwc`; if the loop never stops, `end_pos` keeps the value `char_pos`. -/
def t3EndAux (cwc cp : Nat) : List Char → Option Char → Nat → Nat → Nat
  | [], _, _, _ => cp
  | c :: cs, prev, i, ewc =>
    if isBoundary prev c then
      if cwc ≤ ewc + 1 then i
      else t3EndAux cwc cp cs (some c) (i + 1) (ewc + 1)
    else t3EndAux cwc cp cs (some c) (i + 1) ewc

/-- `end_pos` of Tier 3 before the empty-range fallback. -/
def t3End (doc : List Char) (cp cwc : Nat) : Nat :=
  t3EndAux cwc cp (doc.drop cp) none cp 0

/-- Tier 3 of the locator (gui_backend.py lines 488-532): approximate
word-count alignment on the whitespace-collapsed (case-preserving) texts. -/
def tier3 (doc citation : List Char) : Option (Nat × Nat) :=
  let nc := normB citation
  if nc = [] then none
  else
    match pyFind nc (normB doc) with
    | none => none
    | some normPos =>
      let target := (pySplit ((normB doc).take normPos)).length
      let charPos := t3Start doc target
      let cwc := (pySplit nc).length
      let endPos := t3End doc charPos cwc
      let endPos := if endPos = charPos
        then min (charPos + citation.length) doc.length else endPos
      some (charPos, endPos)

/-- The per-citation span location of `create_highlighted_html`
(gui_backend.py lines 455-532): Tier 1 verbatim find, then Tier 2
whitespace-flexible regex, then Tier 3 word-count alignment; `none` when the
citation is skipped (left unhighlighted). -/
def locateSpan (doc citation : List Char) : Option (Nat × Nat) :=
  match pyFind citation doc with
  | some p => some (p, p + citation.length)
  | none =>
    match tier2 citation doc with
    | some pe => some pe
    | none => tier3 doc citation

/-! ## HTML escaping and highlight assembly (src/gui_backend.py) -/

/-- Python `s.replace(old, new)` (leftmost, non-overlapping), with fuel for
structural recursion; called with fuel `s.length` it computes the
replacement for a non-empty `old` (the only way the code uses it). -/
def pyReplaceF (old new : List Char) : Nat → List Char → List Char
  | _, [] => []
  | 0, s => s
  | f + 1, c :: cs =>
    if old ≠ [] ∧ old.isPrefixOf (c :: cs) then
      new ++ pyReplaceF old new f ((c :: cs).drop old.length)
    else c :: pyReplaceF old new f cs

/-- Python `s.replace(old, new)` for non-empty `old`. -/
def pyReplace (s old new : List Char) : List Char :=
  pyReplaceF old new s.length s

/-- `GuiBackend._escape_html` (src/gui_backend.py lines 648-662): chained
replacements with `&` first. -/
def escape_html (t : List Char) : List Char :=
  pyReplace (pyReplace (pyReplace (pyReplace (pyReplace t
    ['&'] (toL "&amp;"))
    ['<'] (toL "&lt;"))
    ['>'] (toL "&gt;"))
    ['"'] (toL "&quot;"))
    ['\''] (toL "&#39;")

/-- Python slicing `s[a:b]` for nonnegative indices (clamped; empty when
`b ≤ a`). -/
def pySlice (s : List Char) (a b : Nat) : List Char := (s.take b).drop a

/-- `highlights.sort(key=lambda x: x['start'])`: stable sort ascending by
span start. -/
def sortByStart (hs : List (Nat × Nat)) : List (Nat × Nat) :=
  hs.insertionSort (fun a b => a.1 ≤ b.1)

/-- The emission loop of `create_highlighted_html` (gui_backend.py lines
612-643) on sorted spans: the unmarked slice `doc[last_pos:start]`, the
marked slice `doc[start:end]`, cursor to `end`; after the last highlight the
trailing `doc[last_pos:]`.  Each emitted piece is tagged with whether it is
a marked slice. -/
def assembleGo (doc : List Char) (lastPos : Nat) :
    List (Nat × Nat) → List (Bool × List Char)
  | [] => [(false, doc.drop lastPos)]
  | (s, e) :: rest =>
    (false, pySlice doc lastPos s) :: (true, pySlice doc s e) :: assembleGo doc e rest

/-- The Highlight Assembler: sort by start, then emit alternating unmarked
and marked slices. -/
def assembleSlices (doc : List Char) (hs : List (Nat × Nat)) :
    List (Bool × List Char) :=
  assembleGo doc 0 (sortByStart hs)

/-- In-order concatenation of all emitted slices. -/
def assembleConcat (doc : List Char) (hs : List (Nat × Nat)) : List Char :=
  ((assembleSlices doc hs).map Prod.snd).flatten

/-! ## A words-and-gaps view used to state the whitespace-drift claims -/

/-- `buildW w0 ps` is the text beginning with the word `w0` followed by the
gap/word pairs of `ps`: `w0 ++ g1 ++ w1 ++ g2 ++ w2 ++ ...`. -/
def buildW (w0 : List Char) (ps : List (List Char × List Char)) : List Char :=
  w0 ++ (ps.map fun p => p.1 ++ p.2).flatten

/-- A word: non-empty, no whitespace characters. -/
abbrev goodWord (w : List Char) : Prop := w ≠ [] ∧ ∀ c ∈ w, pyIsSpace c = false

/-- A gap: non-empty, only whitespace characters. -/
abbrev goodGap (g : List Char) : Prop := g ≠ [] ∧ ∀ c ∈ g, pyIsSpace c = true

/-! ## A whitespace-collapsing machine used in the proofs

`normAux false` collapses every whitespace run to a single space without
trimming; it differs from `normB` only by at most one leading and one
trailing space, and unlike `normB` it is compositional over `++`, which is
what the substring-preservation proofs need. -/

/-- Run-collapsing scan; `inRun` records whether the previous character was
part of a whitespace run already represented in the output. -/
def normAux (inRun : Bool) : List Char → List Char
  | [] => []
  | c :: cs =>
    if pyIsSpace c then
      if inRun then normAux true cs else ' ' :: normAux true cs
    else c :: normAux false cs

/-- The `inRun` state after scanning a list from state `b`. -/
def endState (b : Bool) : List Char → Bool
  | [] => b
  | c :: cs => endState (pyIsSpace c) cs

/-- `[' ']` when the text starts with whitespace, else `[]`: the leading
space `normAux false` emits beyond `normB`. -/
def leadSp (t : List Char) : List Char :=
  if t.head?.any pyIsSpace then [' '] else []

/-- All characters are the space character. -/
def allSp (b : List Char) : Prop := ∀ c ∈ b, c = ' '

/-- The per-character encoding realised by the chain of replacements in
`_escape_html` (`&` first, so produced entities are never re-escaped). -/
def encHtml (c : Char) : List Char :=
  if c = '&' then ['&', 'a', 'm', 'p', ';']
  else if c = '<' then ['&', 'l', 't', ';']
  else if c = '>' then ['&', 'g', 't', ';']
  else if c = '"' then ['&', 'q', 'u', 'o', 't', ';']
  else if c = '\'' then ['&', '#', '3', '9', ';']
  else [c]

/-! ## Basic facts about `pyFind` -/

theorem isPrefixOf_eq_true {l m : List Char} :
    l.isPrefixOf m = true ↔ ∃ t, l ++ t = m := by
  induction l generalizing m with
  | nil => simp [List.isPrefixOf]
  | cons a as ih =>
    cases m with
    | nil => simp [List.isPrefixOf]
    | cons b bs =>
      simp only [List.isPrefixOf, Bool.and_eq_true, beq_iff_eq, ih, List.cons_append,
        List.cons.injEq]
      constructor
      · rintro ⟨rfl, t, rfl⟩; exact ⟨t, rfl, rfl⟩
      · rintro ⟨t, rfl, rfl⟩; exact ⟨rfl, t, rfl⟩

theorem pyFind_eq_some_of_infix {S D : List Char} (h : S <:+: D) :
    ∃ p, pyFind S D = some p ∧ p + S.length ≤ D.length ∧
      (D.drop p).take S.length = S := by
  induction D with
  | nil =>
    rcases h with ⟨a, b, hab⟩
    rw [List.append_assoc] at hab
    rcases List.append_eq_nil.mp hab with ⟨rfl, h2⟩
    rcases List.append_eq_nil.mp h2 with ⟨rfl, rfl⟩
    exact ⟨0, by simp [pyFind, List.isPrefixOf], by simp, by simp⟩
  | cons c cs ih =>
    by_cases hp : S.isPrefixOf (c :: cs) = true
    · rcases isPrefixOf_eq_true.mp hp with ⟨t, ht⟩
      refine ⟨0, by simp [pyFind, hp], ?_, ?_⟩
      · have := congrArg List.length ht; simp at this; simp; omega
      · simp [← ht, List.take_left]
    · rcases h with ⟨a, b, hab⟩
      cases a with
      | nil =>
        exfalso; apply hp
        exact isPrefixOf_eq_true.mpr ⟨b, by simpa using hab⟩
      | cons x xs =>
        have hx : x = c ∧ xs ++ S ++ b = cs := by
          simpa [List.cons_append] using hab
        rcases ih ⟨xs, b, hx.2⟩ with ⟨p, hfind, hlen, htake⟩
        exact ⟨p + 1, by simp [pyFind, hp, hfind], by simp; omega, by simpa using htake⟩

theorem pyFind_eq_some_imp {S D : List Char} {p : Nat} (h : pyFind S D = some p) :
    S <:+: D := by
  induction D generalizing p with
  | nil =>
    simp only [pyFind] at h
    split at h
    · rename_i hp
      rcases isPrefixOf_eq_true.mp hp with ⟨t, ht⟩
      exact ⟨[], t, by simpa using ht⟩
    · exact absurd h (by simp)
  | cons c cs ih =>
    simp only [pyFind] at h
    split at h
    · rename_i hp
      rcases isPrefixOf_eq_true.mp hp with ⟨t, ht⟩
      exact ⟨[], t, by simpa using ht⟩
    · rcases Option.map_eq_some'.mp h with ⟨q, hq, _⟩
      rcases ih hq with ⟨a, b, hab⟩
      exact ⟨c :: a, b, by simp [hab]⟩

theorem pyFind_eq_none_of_not_infix {S D : List Char} (h : ¬ S <:+: D) :
    pyFind S D = none := by
  cases hf : pyFind S D with
  | none => rfl
  | some p => exact absurd (pyFind_eq_some_imp hf) h

theorem pyContains_eq_true_iff {S D : List Char} :
    pyContains S D = true ↔ S <:+: D := by
  constructor
  · intro h
    rcases Option.isSome_iff_exists.mp h with ⟨p, hp⟩
    exact pyFind_eq_some_imp hp
  · intro h
    rcases pyFind_eq_some_of_infix h with ⟨p, hp, -, -⟩
    simp [pyContains, hp]

/-! ## The collapsing machine -/

theorem normAux_append (b : Bool) (xs ys : List Char) :
    normAux b (xs ++ ys) = normAux b xs ++ normAux (endState b xs) ys := by
  induction xs generalizing b with
  | nil => simp [normAux, endState]
  | cons c cs ih =>
    by_cases hc : pyIsSpace c = true
    · cases b <;> simp [normAux, endState, hc, ih]
    · simp [normAux, endState, hc, ih]

theorem normAux_false_cases (S : List Char) :
    normAux false S = normAux true S ∨
      normAux false S = ' ' :: normAux true S := by
  cases S with
  | nil => left; rfl
  | cons c cs =>
    by_cases hc : pyIsSpace c = true
    · right; simp [normAux, hc]
    · left; simp [normAux, hc]

theorem normAux_ends_space {p : List Char} {b : Bool}
    (h : endState b p = true) :
    (∃ u, normAux b p = u ++ [' ']) ∨ (normAux b p = [] ∧ b = true) := by
  induction p generalizing b with
  | nil =>
    right; exact ⟨rfl, by simpa [endState] using h⟩
  | cons c cs ih =>
    have h' : endState (pyIsSpace c) cs = true := by simpa [endState] using h
    by_cases hc : pyIsSpace c = true
    · rcases ih (b := true) (by simpa [hc] using h') with ⟨u, hu⟩ | ⟨hnil, -⟩
      · cases b with
        | true => exact Or.inl ⟨u, by simpa [normAux, hc] using hu⟩
        | false => exact Or.inl ⟨' ' :: u, by simp [normAux, hc, hu]⟩
      · cases b with
        | true => exact Or.inr ⟨by simp [normAux, hc, hnil], rfl⟩
        | false => exact Or.inl ⟨[], by simp [normAux, hc, hnil]⟩
    · rcases ih (b := false) (by simpa [hc] using h') with ⟨u, hu⟩ | ⟨-, hfalse⟩
      · exact Or.inl ⟨c :: u, by simp [normAux, hc, hu]⟩
      · exact absurd hfalse (by simp)

/-- Substrings are preserved by run collapsing. -/
theorem normAux_infix_of_infix (S D : List Char) (h : S <:+: D) :
    normAux false S <:+: normAux false D := by
  rcases h with (⟨p, q, rfl⟩)
  have key : ∃ u, normAux false p ++ normAux (endState false p) S =
      u ++ normAux false S := by
    cases hs : endState false p with
    | false => exact ⟨normAux false p, rfl⟩
    | true =>
      rcases normAux_false_cases S with hS | hS
      · exact ⟨normAux false p, by rw [hS]⟩
      · rcases normAux_ends_space hs with ⟨u, hu⟩ | ⟨-, hb⟩
        · refine ⟨u, ?_⟩
          rw [hu, hS]
          simp
        · exact absurd hb (by simp)
  rcases key with ⟨u, hu⟩
  refine ⟨u, normAux (endState false (p ++ S)) q, ?_⟩
  calc u ++ normAux false S ++ normAux (endState false (p ++ S)) q
      = (normAux false p ++ normAux (endState false p) S) ++
          normAux (endState false (p ++ S)) q := by rw [hu]
    _ = normAux false (p ++ S) ++ normAux (endState false (p ++ S)) q := by
          rw [normAux_append]
    _ = normAux false (p ++ S ++ q) := by rw [← normAux_append]

/-! ## Facts about `pySplit` and `joinSp` -/

theorem pySplit_cons_space {c : Char} (cs : List Char) (hc : pyIsSpace c = true) :
    pySplit (c :: cs) = pySplit cs := by
  simp [pySplit, hc]

theorem pySplit_all_space {g : List Char} (hg : ∀ c ∈ g, pyIsSpace c = true) :
    ∀ r, pySplit (g ++ r) = pySplit r := by
  induction g with
  | nil => intro r; rfl
  | cons c cs ih =>
    intro r
    rw [List.cons_append, pySplit_cons_space _ (hg c (by simp))]
    exact ih (fun x hx => hg x (by simp [hx])) r

theorem takeWhile_sat_append {p : Char → Bool} {xs : List Char} {y : Char}
    (hxs : ∀ x ∈ xs, p x = true) (hy : p y = false) (r : List Char) :
    (xs ++ y :: r).takeWhile p = xs := by
  induction xs with
  | nil => simp [List.takeWhile_cons, hy]
  | cons a as ih =>
    simp only [List.cons_append, List.takeWhile_cons, hxs a (by simp)]
    simpa using ih (fun x hx => hxs x (by simp [hx]))

theorem dropWhile_sat_append {p : Char → Bool} {xs : List Char} {y : Char}
    (hxs : ∀ x ∈ xs, p x = true) (hy : p y = false) (r : List Char) :
    (xs ++ y :: r).dropWhile p = y :: r := by
  induction xs with
  | nil => simp [List.dropWhile_cons, hy]
  | cons a as ih =>
    simp only [List.cons_append, List.dropWhile_cons, hxs a (by simp)]
    simpa using ih (fun x hx => hxs x (by simp [hx]))

theorem pySplit_cons_word : ∀ (cs : List Char) (c : Char), pyIsSpace c = false →
    pySplit (c :: cs) =
      (c :: cs.takeWhile (fun x => !pyIsSpace x)) ::
        pySplit (cs.dropWhile (fun x => !pyIsSpace x)) := by
  intro cs
  induction cs with
  | nil => intro c hc; simp [pySplit, hc]
  | cons d ds ih =>
    intro c hc
    by_cases hd : pyIsSpace d = true
    · simp [pySplit, hc, hd, List.takeWhile_cons, List.dropWhile_cons]
    · simp only [Bool.not_eq_true] at hd
      have hstep : pySplit (c :: d :: ds) =
          match pySplit (d :: ds) with
          | [] => [[c]]
          | w :: ws => (c :: w) :: ws := by
        conv_lhs => rw [pySplit]
        simp [hc, hd]
      rw [hstep, ih d hd]
      simp [List.takeWhile_cons, List.dropWhile_cons, hd]

theorem pySplit_good {t : List Char} :
    ∀ w ∈ pySplit t, w ≠ [] ∧ ∀ c ∈ w, pyIsSpace c = false := by
  induction t with
  | nil => simp [pySplit]
  | cons c cs ih =>
    by_cases hc : pyIsSpace c = true
    · rw [pySplit_cons_space cs hc]; exact ih
    · simp only [Bool.not_eq_true] at hc
      cases cs with
      | nil =>
        intro w hw
        simp [pySplit, hc] at hw
        subst hw
        exact ⟨by simp, fun x hx => by simp at hx; subst hx; exact hc⟩
      | cons d ds =>
        by_cases hd : pyIsSpace d = true
        · have he : pySplit (c :: d :: ds) = [c] :: pySplit (d :: ds) := by
            simp [pySplit, hc, hd]
          rw [he]
          intro w hw
          rcases List.mem_cons.mp hw with rfl | hw
          · exact ⟨by simp, fun x hx => by simp at hx; subst hx; exact hc⟩
          · exact ih w hw
        · simp only [Bool.not_eq_true] at hd
          have hstep : pySplit (c :: d :: ds) =
              match pySplit (d :: ds) with
              | [] => [[c]]
              | w :: ws => (c :: w) :: ws := by
            conv_lhs => rw [pySplit]
            simp [hc, hd]
          cases hr : pySplit (d :: ds) with
          | nil =>
            have he : pySplit (c :: d :: ds) = [[c]] := by
              rw [hstep, hr]
            rw [he]
            intro w hw
            simp only [List.mem_singleton] at hw
            subst hw
            exact ⟨by simp, fun x hx => by simp at hx; subst hx; exact hc⟩
          | cons w ws =>
            have he : pySplit (c :: d :: ds) = (c :: w) :: ws := by
              rw [hstep, hr]
            rw [he]
            intro v hv
            rcases List.mem_cons.mp hv with rfl | hv
            · have hw := ih w (by rw [hr]; simp)
              refine ⟨by simp, fun x hx => ?_⟩
              rcases List.mem_cons.mp hx with rfl | hx
              · exact hc
              · exact hw.2 x hx
            · exact ih v (by rw [hr]; simp [hv])

theorem joinSp_cons {w : List Char} {ws : List (List Char)} (h : ws ≠ []) :
    joinSp (w :: ws) = w ++ ' ' :: joinSp ws := by
  cases ws with
  | nil => exact absurd rfl h
  | cons v vs => rfl

theorem pySplit_single {w : List Char} (hne : w ≠ [])
    (hw : ∀ c ∈ w, pyIsSpace c = false) : pySplit w = [w] := by
  cases w with
  | nil => exact absurd rfl hne
  | cons c cs =>
    rw [pySplit_cons_word cs c (hw c (by simp))]
    have ht : cs.takeWhile (fun x => !pyIsSpace x) = cs :=
      List.takeWhile_eq_self_iff.mpr (fun x hx => by simp [hw x (by simp [hx])])
    have hd : cs.dropWhile (fun x => !pyIsSpace x) = [] :=
      List.dropWhile_eq_nil_iff.mpr (fun x hx => by simp [hw x (by simp [hx])])
    rw [ht, hd]
    rfl

theorem pySplit_joinSp {ws : List (List Char)}
    (h : ∀ w ∈ ws, w ≠ [] ∧ ∀ c ∈ w, pyIsSpace c = false) :
    pySplit (joinSp ws) = ws := by
  induction ws with
  | nil => rfl
  | cons w vs ih =>
    cases vs with
    | nil =>
      have hw := h w (by simp)
      exact pySplit_single hw.1 hw.2
    | cons v vs' =>
      rw [joinSp_cons (by simp)]
      have hw := h w (by simp)
      cases hwc : w with
      | nil => exact absurd hwc hw.1
      | cons c cs =>
        subst hwc
        rw [List.cons_append,
          pySplit_cons_word _ c (hw.2 c (by simp))]
        have hsat : ∀ x ∈ cs, (fun x => !pyIsSpace x) x = true :=
          fun x hx => by simp [hw.2 x (by simp [hx])]
        have hsp : (fun x => !pyIsSpace x) ' ' = false := by simp [pyIsSpace]
        rw [takeWhile_sat_append hsat hsp, dropWhile_sat_append hsat hsp,
          pySplit_cons_space _ (by simp [pyIsSpace])]
        rw [ih (fun u hu => h u (by simp [hu]))]

theorem joinSp_no_space_head {ws : List (List Char)}
    (h : ∀ w ∈ ws, w ≠ [] ∧ ∀ c ∈ w, pyIsSpace c = false) :
    (joinSp ws).head?.any pyIsSpace = false := by
  cases ws with
  | nil => rfl
  | cons w vs =>
    have hw := h w (by simp)
    have hj : ∃ r, joinSp (w :: vs) = w ++ r := by
      cases vs with
      | nil => exact ⟨[], by simp [joinSp]⟩
      | cons v vs' => exact ⟨' ' :: joinSp (v :: vs'), joinSp_cons (by simp)⟩
    rcases hj with ⟨r, hr⟩
    rw [hr]
    cases hwc : w with
    | nil => exact absurd hwc hw.1
    | cons c cs =>
      have hc : pyIsSpace c = false := hw.2 c (by rw [hwc]; simp)
      simp [hc]

theorem mem_of_getLast?_eq {l : List Char} {a : Char} (h : l.getLast? = some a) :
    a ∈ l := by
  have h2 : a ∈ l.reverse := by
    rw [← List.head?_reverse] at h
    cases hl : l.reverse with
    | nil => rw [hl] at h; simp at h
    | cons x xs => rw [hl] at h; simp at h; simp [hl, h]
  simpa using h2

theorem joinSp_no_space_last {ws : List (List Char)}
    (h : ∀ w ∈ ws, w ≠ [] ∧ ∀ c ∈ w, pyIsSpace c = false) :
    (joinSp ws).getLast?.any pyIsSpace = false := by
  induction ws with
  | nil => rfl
  | cons w vs ih =>
    have hlast : (joinSp (w :: vs)).getLast? = (joinSp (if vs = [] then [w] else vs)).getLast? := by
      cases vs with
      | nil => simp
      | cons v vs' =>
        rw [joinSp_cons (by simp)]
        simp only [if_neg (by simp : ¬(v :: vs' = []))]
        have hne : ' ' :: joinSp (v :: vs') ≠ [] := by simp
        rw [List.getLast?_append_of_ne_nil w hne]
        have hne2 : joinSp (v :: vs') ≠ [] := by
          have hv := h v (by simp)
          cases hvc : v with
          | nil => exact absurd hvc hv.1
          | cons x xs =>
            cases vs' with
            | nil => simp [joinSp, hvc]
            | cons u us => rw [joinSp_cons (by simp)]; simp [hvc]
        rw [show (' ' :: joinSp (v :: vs')) = [' '] ++ joinSp (v :: vs') from rfl]
        rw [List.getLast?_append_of_ne_nil [' '] hne2]
    by_cases hvs : vs = []
    · subst hvs
      have hw := h w (by simp)
      cases hg : (joinSp [w]).getLast? with
      | none => rfl
      | some c =>
        have hcm : c ∈ w := by
          have := mem_of_getLast?_eq hg
          simpa [joinSp] using this
        simp [hw.2 c hcm]
    · rw [hlast, if_neg hvs]
      exact ih (fun u hu => h u (by simp [hu]))

theorem normAux_true_eq : ∀ cs : List Char,
    normAux true cs = normAux false (cs.dropWhile pyIsSpace) := by
  intro cs
  induction cs with
  | nil => rfl
  | cons c cs ih =>
    by_cases hc : pyIsSpace c = true
    · simp [normAux, hc, List.dropWhile_cons, ih]
    · simp only [Bool.not_eq_true] at hc
      simp [normAux, hc, List.dropWhile_cons]

theorem normAux_nonspace {w : List Char} (hw : ∀ c ∈ w, pyIsSpace c = false) :
    ∀ b, normAux b w = w := by
  induction w with
  | nil => intro b; rfl
  | cons c cs ih =>
    intro b
    have hc := hw c (by simp)
    simp [normAux, hc, ih (fun x hx => hw x (by simp [hx]))]

theorem endState_nonspace : ∀ (w : List Char) (b : Bool), w ≠ [] →
    (∀ c ∈ w, pyIsSpace c = false) → endState b w = false := by
  intro w
  induction w with
  | nil => intro b h; exact absurd rfl h
  | cons c cs ih =>
    intro b _ hw
    cases cs with
    | nil => simp [endState, hw c (by simp)]
    | cons d ds =>
      rw [show endState b (c :: d :: ds) = endState (pyIsSpace c) (d :: ds) from rfl]
      exact ih _ (by simp) (fun x hx => hw x (by simp [hx]))

theorem dropWhile_head_not {p : Char → Bool} :
    ∀ (l : List Char) {x : Char} {xs : List Char},
      l.dropWhile p = x :: xs → p x = false := by
  intro l
  induction l with
  | nil => intro x xs h; simp at h
  | cons a as ih =>
    intro x xs h
    rw [List.dropWhile_cons] at h
    by_cases ha : p a = true
    · rw [if_pos ha] at h; exact ih h
    · rw [if_neg ha] at h
      cases h
      simpa using ha

theorem pySplit_dropWhile_space (cs : List Char) :
    pySplit (cs.dropWhile pyIsSpace) = pySplit cs := by
  conv_rhs => rw [← List.takeWhile_append_dropWhile pyIsSpace cs]
  rw [pySplit_all_space (fun c hc => List.mem_takeWhile_imp hc)]

theorem allSp_nil : allSp [] := fun c hc => absurd hc (List.not_mem_nil c)

/-- The collapsing machine computes `normB` up to a leading space (present
exactly when the text starts with whitespace) and a trailing block of
spaces. -/
theorem normAux_false_eq_normB :
    ∀ (n : Nat) (t : List Char), t.length ≤ n →
      ∃ b2, allSp b2 ∧ normAux false t = leadSp t ++ normB t ++ b2 := by
  intro n
  induction n with
  | zero =>
    intro t ht
    have : t = [] := List.length_eq_zero.mp (Nat.le_zero.mp ht)
    subst this
    exact ⟨[], allSp_nil, rfl⟩
  | succ n ih =>
    intro t ht
    cases t with
    | nil => exact ⟨[], allSp_nil, rfl⟩
    | cons c cs =>
      by_cases hc : pyIsSpace c = true
      · -- leading whitespace: one collapsed space, then the machine on the
        -- de-spaced remainder
        have hlen : (cs.dropWhile pyIsSpace).length ≤ n := by
          have h1 : (cs.dropWhile pyIsSpace).length ≤ cs.length :=
            List.Sublist.length_le (List.dropWhile_sublist pyIsSpace)
          have h2 : cs.length ≤ n := by simpa using ht
          omega
        rcases ih (cs.dropWhile pyIsSpace) hlen with ⟨b2, hb2, hmach⟩
        have hlead : leadSp (cs.dropWhile pyIsSpace) = [] := by
          unfold leadSp
          cases hd : cs.dropWhile pyIsSpace with
          | nil => simp
          | cons x xs => simp [dropWhile_head_not cs hd]
        refine ⟨b2, hb2, ?_⟩
        have h1 : normAux false (c :: cs) = ' ' :: normAux false (cs.dropWhile pyIsSpace) := by
          simp [normAux, hc, normAux_true_eq]
        have h2 : normB (c :: cs) = normB (cs.dropWhile pyIsSpace) := by
          unfold normB
          rw [pySplit_cons_space cs hc, pySplit_dropWhile_space]
        rw [h1, hmach, hlead, h2]
        simp [leadSp, hc]
      · -- a word, then the machine on the remainder
        simp only [Bool.not_eq_true] at hc
        set w := c :: cs.takeWhile (fun x => !pyIsSpace x) with hw
        set r := cs.dropWhile (fun x => !pyIsSpace x) with hr
        have hwr : c :: cs = w ++ r := by
          rw [hw, hr]
          simp [List.takeWhile_append_dropWhile]
        have hwgood : ∀ x ∈ w, pyIsSpace x = false := by
          intro x hx
          rcases List.mem_cons.mp hx with rfl | hx
          · exact hc
          · have := List.mem_takeWhile_imp hx
            simpa using this
        have hsplit : pySplit (c :: cs) = w :: pySplit r :=
          pySplit_cons_word cs c hc
        have hmachw : normAux false (c :: cs) = w ++ normAux false r := by
          rw [hwr, normAux_append, normAux_nonspace hwgood,
            endState_nonspace w false (by simp [hw]) hwgood]
        have hrlen : r.length ≤ n := by
          have h1 : r.length ≤ cs.length :=
            List.Sublist.length_le (List.dropWhile_sublist _)
          have h2 : cs.length ≤ n := by simpa using ht
          omega
        cases hrc : r with
        | nil =>
          refine ⟨[], allSp_nil, ?_⟩
          rw [hmachw, hrc]
          have : normB (c :: cs) = w := by
            unfold normB
            rw [hsplit, hrc]
            rfl
          rw [this]
          simp [leadSp, hc, normAux]
        | cons x r' =>
          have hx : pyIsSpace x = true := by
            have := dropWhile_head_not cs (by rw [← hr, hrc])
            simpa using this
          rcases ih r hrlen with ⟨b2, hb2, hmach⟩
          have hleadr : leadSp r = [' '] := by
            unfold leadSp
            rw [hrc]
            simp [hx]
          cases hps : pySplit r with
          | nil =>
            have hnr : normB r = [] := by unfold normB; rw [hps]; rfl
            refine ⟨' ' :: b2, ?_, ?_⟩
            · intro a ha
              rcases List.mem_cons.mp ha with rfl | ha
              · rfl
              · exact hb2 a ha
            · rw [hmachw, hmach, hleadr, hnr]
              have : normB (c :: cs) = w := by
                unfold normB
                rw [hsplit, hps]
                rfl
              rw [this]
              simp [leadSp, hc]
          | cons v vs =>
            refine ⟨b2, hb2, ?_⟩
            rw [hmachw, hmach, hleadr]
            have : normB (c :: cs) = w ++ ' ' :: normB r := by
              unfold normB
              rw [hsplit, hps, joinSp_cons (by simp)]
            rw [this]
            simp [leadSp, hc]

/-! ## Stripping surrounding spaces from a substring occurrence -/

theorem infixTrans {x y z : List Char} (h1 : x <:+: y) (h2 : y <:+: z) :
    x <:+: z := by
  rcases h1 with ⟨s, t, rfl⟩
  rcases h2 with ⟨u, v, rfl⟩
  exact ⟨u ++ s, t ++ v, by simp⟩

theorem infixReverse {x y : List Char} (h : x <:+: y) :
    x.reverse <:+: y.reverse := by
  rcases h with ⟨s, t, rfl⟩
  exact ⟨t.reverse, s.reverse, by simp⟩

theorem infix_drop_space_front :
    ∀ (a : List Char) {l x : List Char}, allSp a →
      x.head?.any pyIsSpace = false → x <:+: a ++ l → x <:+: l := by
  intro a
  induction a with
  | nil => intro l x _ _ h; simpa using h
  | cons c a' ih =>
    intro l x ha hx h
    have hc : c = ' ' := ha c (by simp)
    rcases h with ⟨s, t, hst⟩
    cases s with
    | nil =>
      cases x with
      | nil => exact ⟨[], l, by simp⟩
      | cons y x' =>
        have hy : y = c := by
          have := congrArg List.head? hst
          simpa using this
        subst hy
        rw [hc] at hx
        simp [pyIsSpace] at hx
    | cons u s' =>
      have htail : s' ++ x ++ t = a' ++ l := by
        have := congrArg List.tail hst
        simpa using this
      exact ih (fun z hz => ha z (by simp [hz])) hx ⟨s', t, htail⟩

theorem infix_drop_space_back {b l x : List Char} (hb : allSp b)
    (hx : x.getLast?.any pyIsSpace = false) (h : x <:+: l ++ b) : x <:+: l := by
  have h1 : x.reverse <:+: b.reverse ++ l.reverse := by
    have := infixReverse h
    simpa [List.reverse_append] using this
  have h2 : x.reverse <:+: l.reverse :=
    infix_drop_space_front b.reverse
      (fun z hz => hb z (by simpa using hz))
      (by rw [List.head?_reverse]; exact hx) h1
  have h3 := infixReverse h2
  simpa using h3

theorem allSp_leadSp (t : List Char) : allSp (leadSp t) := by
  unfold leadSp
  split
  · intro c hc; simpa using hc
  · exact allSp_nil

/-- Taking a substring commutes with normalisation: the normalised form of
a substring occurs inside the normalised form of the whole text. -/
theorem normB_infix_mono {S D : List Char} (h : S <:+: D) :
    normB S <:+: normB D := by
  rcases normAux_false_eq_normB S.length S (Nat.le_refl _) with ⟨bS, hbS, hS⟩
  rcases normAux_false_eq_normB D.length D (Nat.le_refl _) with ⟨bD, hbD, hD⟩
  have h1 : normB S <:+: normAux false S := ⟨leadSp S, bS, hS.symm⟩
  have h2 := normAux_infix_of_infix S D h
  have h3 : normB S <:+: leadSp D ++ (normB D ++ bD) := by
    have := infixTrans h1 h2
    rw [hD] at this
    simpa [List.append_assoc] using this
  have hhead : (normB S).head?.any pyIsSpace = false :=
    joinSp_no_space_head (fun w hw => pySplit_good w hw)
  have hlast : (normB S).getLast?.any pyIsSpace = false :=
    joinSp_no_space_last (fun w hw => pySplit_good w hw)
  exact infix_drop_space_back hbD hlast
    (infix_drop_space_front (leadSp D) (allSp_leadSp D) hhead h3)

theorem normG_infix_mono {S D : List Char} (h : S <:+: D) :
    normG S <:+: normG D := by
  rcases normB_infix_mono h with ⟨s, t, hst⟩
  exact ⟨s.map pyLower, t.map pyLower, by
    unfold normG
    rw [← hst]
    simp⟩

/-! ## Characterwise case facts -/

theorem char_eq_of_toNat {a b : Char} (h : a.toNat = b.toNat) : a = b :=
  Char.eq_of_val_eq (UInt32.ext h)

theorem pyUpper_toNat (c : Char) :
    (pyUpper c).toNat =
      if 97 ≤ c.toNat ∧ c.toNat ≤ 122 then c.toNat - 32 else c.toNat := by
  unfold pyUpper
  split <;> rfl

theorem pyLower_toNat (c : Char) :
    (pyLower c).toNat =
      if 65 ≤ c.toNat ∧ c.toNat ≤ 90 then c.toNat + 32 else c.toNat := by
  unfold pyLower
  split <;> rfl

theorem pyLower_pyUpper (c : Char) : pyLower (pyUpper c) = pyLower c := by
  apply char_eq_of_toNat
  rw [pyLower_toNat, pyLower_toNat, pyUpper_toNat]
  split_ifs <;> omega

theorem pyLower_pyLower (c : Char) : pyLower (pyLower c) = pyLower c := by
  apply char_eq_of_toNat
  rw [pyLower_toNat, pyLower_toNat]
  split_ifs <;> omega

theorem pyIsSpace_iff_toNat (c : Char) :
    pyIsSpace c = true ↔
      (c.toNat = 32 ∨ c.toNat = 9 ∨ c.toNat = 10 ∨ c.toNat = 13 ∨
        c.toNat = 11 ∨ c.toNat = 12) := by
  unfold pyIsSpace
  simp only [Bool.or_eq_true, decide_eq_true_eq]
  constructor
  · rintro (((((rfl | rfl) | rfl) | rfl) | rfl) | rfl)
    · exact Or.inl rfl
    · exact Or.inr (Or.inl rfl)
    · exact Or.inr (Or.inr (Or.inl rfl))
    · exact Or.inr (Or.inr (Or.inr (Or.inl rfl)))
    · exact Or.inr (Or.inr (Or.inr (Or.inr (Or.inl rfl))))
    · exact Or.inr (Or.inr (Or.inr (Or.inr (Or.inr rfl))))
  · rintro (h | h | h | h | h | h)
    · exact Or.inl (Or.inl (Or.inl (Or.inl (Or.inl (char_eq_of_toNat h)))))
    · exact Or.inl (Or.inl (Or.inl (Or.inl (Or.inr (char_eq_of_toNat h)))))
    · exact Or.inl (Or.inl (Or.inl (Or.inr (char_eq_of_toNat h))))
    · exact Or.inl (Or.inl (Or.inr (char_eq_of_toNat h)))
    · exact Or.inl (Or.inr (char_eq_of_toNat h))
    · exact Or.inr (char_eq_of_toNat h)

theorem pyIsSpace_pyUpper (c : Char) : pyIsSpace (pyUpper c) = pyIsSpace c := by
  rcases Bool.eq_false_or_eq_true (pyIsSpace c) with hc | hc
  · rw [hc]
    have h1 := (pyIsSpace_iff_toNat c).mp hc
    rw [pyIsSpace_iff_toNat, pyUpper_toNat]
    split_ifs with h <;> omega
  · rw [hc]
    rcases Bool.eq_false_or_eq_true (pyIsSpace (pyUpper c)) with hu | hu
    · exfalso
      have h1 := (pyIsSpace_iff_toNat (pyUpper c)).mp hu
      rw [pyUpper_toNat] at h1
      have h2 : ¬(pyIsSpace c = true) := by simp [hc]
      rw [pyIsSpace_iff_toNat] at h2
      split_ifs at h1 <;> omega
    · exact hu

theorem pyIsSpace_pyLower (c : Char) : pyIsSpace (pyLower c) = pyIsSpace c := by
  rcases Bool.eq_false_or_eq_true (pyIsSpace c) with hc | hc
  · rw [hc]
    have h1 := (pyIsSpace_iff_toNat c).mp hc
    rw [pyIsSpace_iff_toNat, pyLower_toNat]
    split_ifs with h <;> omega
  · rw [hc]
    rcases Bool.eq_false_or_eq_true (pyIsSpace (pyLower c)) with hu | hu
    · exfalso
      have h1 := (pyIsSpace_iff_toNat (pyLower c)).mp hu
      rw [pyLower_toNat] at h1
      have h2 : ¬(pyIsSpace c = true) := by simp [hc]
      rw [pyIsSpace_iff_toNat] at h2
      split_ifs at h1 <;> omega
    · exact hu

theorem pySplit_map {f : Char → Char}
    (hf : ∀ c, pyIsSpace (f c) = pyIsSpace c) :
    ∀ (n : Nat) (t : List Char), t.length ≤ n →
      pySplit (t.map f) = (pySplit t).map (List.map f) := by
  intro n
  induction n with
  | zero =>
    intro t ht
    have : t = [] := List.length_eq_zero.mp (Nat.le_zero.mp ht)
    subst this
    rfl
  | succ n ih =>
    intro t ht
    cases t with
    | nil => rfl
    | cons c cs =>
      by_cases hc : pyIsSpace c = true
      · rw [List.map_cons, pySplit_cons_space _ (by rw [hf]; exact hc),
          pySplit_cons_space _ hc]
        exact ih cs (by simpa using ht)
      · simp only [Bool.not_eq_true] at hc
        rw [List.map_cons, pySplit_cons_word _ _ (by rw [hf]; exact hc),
          pySplit_cons_word _ _ hc]
        have hpred : ((fun x => !pyIsSpace x) ∘ f) = (fun x => !pyIsSpace x) := by
          funext x
          simp [hf]
        have htw : (cs.map f).takeWhile (fun x => !pyIsSpace x) =
            (cs.takeWhile (fun x => !pyIsSpace x)).map f := by
          rw [List.takeWhile_map f _ cs, hpred]
        have hdw : (cs.map f).dropWhile (fun x => !pyIsSpace x) =
            (cs.dropWhile (fun x => !pyIsSpace x)).map f := by
          rw [List.dropWhile_map f _ cs, hpred]
        have hlen : (cs.dropWhile (fun x => !pyIsSpace x)).length ≤ n := by
          have h1 : (cs.dropWhile (fun x => !pyIsSpace x)).length ≤ cs.length :=
            List.Sublist.length_le (List.dropWhile_sublist _)
          have h2 : cs.length ≤ n := by simpa using ht
          omega
        rw [htw, hdw, ih _ hlen]
        simp

theorem joinSp_map {f : Char → Char} (hf : f ' ' = ' ') :
    ∀ ws : List (List Char),
      joinSp (ws.map (List.map f)) = (joinSp ws).map f := by
  intro ws
  induction ws with
  | nil => rfl
  | cons w vs ih =>
    cases vs with
    | nil => rfl
    | cons v vs' =>
      rw [List.map_cons, joinSp_cons (by simp), joinSp_cons (by simp)]
      rw [show (v :: vs').map (List.map f) = (List.map f v) :: vs'.map (List.map f) from rfl] at ih
      simp only [List.map_append, List.map_cons, hf]
      rw [ih]

theorem normG_map_pyUpper (t : List Char) : normG (t.map pyUpper) = normG t := by
  unfold normG normB
  rw [pySplit_map pyIsSpace_pyUpper t.length t (Nat.le_refl _),
    joinSp_map (by decide) (pySplit t)]
  rw [List.map_map]
  congr 1
  funext c
  simp [pyLower_pyUpper]

theorem normG_map_pyLower (t : List Char) : normG (t.map pyLower) = normG t := by
  unfold normG normB
  rw [pySplit_map pyIsSpace_pyLower t.length t (Nat.le_refl _),
    joinSp_map (by decide) (pySplit t)]
  rw [List.map_map]
  congr 1
  funext c
  simp [pyLower_pyLower]

/-! ## Facts of the validator and the locator -/

theorem validateOnNorm_of_contains {nc nd : List Char}
    (h : pyContains nc nd = true) : validateOnNorm nc nd = true := by
  unfold validateOnNorm
  rw [if_pos h]

theorem pySlice_eq_drop_take (D : List Char) (p n : Nat) :
    pySlice D p (p + n) = (D.drop p).take n := by
  unfold pySlice
  rw [List.drop_take ..]
  congr 1
  omega

/-- C2: for every document `D` and non-empty contiguous substring `S` of
`D`, validation of `S` against `D` returns true, and Tier 1 of the locator
(verbatim, case-sensitive find, no normalisation) returns the half-open span
`[p, p + len S)` whose slice of `D` is exactly `S`; more generally,
validation returns true whenever `normalize(citation)` is a contiguous
substring of `normalize(document)`. -/
theorem claim_C2 :
    (∀ (D S : List Char), S ≠ [] → S <:+: D →
      validate_citation S D = true ∧
        ∃ p, locateSpan D S = some (p, p + S.length) ∧
          pySlice D p (p + S.length) = S) ∧
    (∀ (C D : List Char), normG C <:+: normG D →
      validate_citation C D = true) := by
  have general : ∀ (C D : List Char), normG C <:+: normG D →
      validate_citation C D = true := by
    intro C D h
    unfold validate_citation
    exact validateOnNorm_of_contains (pyContains_eq_true_iff.mpr h)
  refine ⟨?_, general⟩
  intro D S _ h
  refine ⟨general S D (normG_infix_mono h), ?_⟩
  rcases pyFind_eq_some_of_infix h with ⟨p, hp, hlen, htake⟩
  refine ⟨p, ?_, ?_⟩
  · unfold locateSpan
    rw [hp]
  · rw [pySlice_eq_drop_take, htake]

/-- Witness for C2 at `D = "hello"`, `S = "ell"`. -/
theorem claim_C2_witness :
    validate_citation (toL "ell") (toL "hello") = true ∧
      ∃ p, locateSpan (toL "hello") (toL "ell") = some (p, p + (toL "ell").length) ∧
        pySlice (toL "hello") p (p + (toL "ell").length) = toL "ell" :=
  claim_C2.1 (toL "hello") (toL "ell") (by decide) (by decide)

/-- C7: validation is case-invariant: upper-casing or lower-casing the
citation (characterwise ASCII case mapping, as Python's `str.upper` and
`str.lower` act on ASCII text) does not change the verdict. -/
theorem claim_C7 : ∀ (C D : List Char),
    validate_citation (C.map pyUpper) D = validate_citation C D ∧
      validate_citation (C.map pyLower) D = validate_citation C D := by
  intro C D
  constructor
  · unfold validate_citation
    rw [normG_map_pyUpper]
  · unfold validate_citation
    rw [normG_map_pyLower]

/-! ## Canonicity of the normalisers -/

theorem normB_idem (t : List Char) : normB (normB t) = normB t := by
  unfold normB
  rw [pySplit_joinSp (fun w hw => pySplit_good w hw)]

theorem normG_eq_map (t : List Char) : normG t = (normB t).map pyLower := rfl

theorem normG_idem (t : List Char) : normG (normG t) = normG t := by
  have h1 : normG (normG t) = normG (normB t) := by
    rw [normG_eq_map t]
    exact normG_map_pyLower (normB t)
  rw [h1, normG_eq_map, normG_eq_map, normB_idem]

theorem chain_within {w : List Char} (hw : ∀ c ∈ w, pyIsSpace c = false) :
    List.Chain' (fun a b => (pyIsSpace a && pyIsSpace b) = false) w := by
  induction w with
  | nil => simp
  | cons c cs ih =>
    cases cs with
    | nil => simp
    | cons d ds =>
      rw [List.chain'_cons]
      exact ⟨by simp [hw c (by simp)],
        ih (fun x hx => hw x (by simp [hx]))⟩

theorem joinSp_chain {ws : List (List Char)}
    (h : ∀ w ∈ ws, w ≠ [] ∧ ∀ c ∈ w, pyIsSpace c = false) :
    List.Chain' (fun a b => (pyIsSpace a && pyIsSpace b) = false) (joinSp ws) := by
  induction ws with
  | nil => simp [joinSp]
  | cons w vs ih =>
    cases vs with
    | nil => exact chain_within (h w (by simp)).2
    | cons v vs' =>
      have hsub : ∀ u ∈ v :: vs', u ≠ [] ∧ ∀ c ∈ u, pyIsSpace c = false :=
        fun u hu => h u (List.mem_cons_of_mem w hu)
      rw [joinSp_cons (by simp)]
      rw [List.chain'_append]
      refine ⟨chain_within (h w (by simp)).2, ?_, ?_⟩
      · rw [List.chain'_cons']
        refine ⟨?_, ih hsub⟩
        intro y hy
        have hhead := joinSp_no_space_head hsub
        cases hj : (joinSp (v :: vs')).head? with
        | none => rw [hj] at hy; cases hy
        | some z =>
          rw [hj] at hy hhead
          simp at hy hhead
          subst hy
          simp [hhead]
      · intro x hx y hy
        have hxm : x ∈ w := mem_of_getLast?_eq (by simpa using hx)
        simp [(h w (by simp)).2 x hxm]

theorem pyIsUpperB_pyLower (c : Char) : pyIsUpperB (pyLower c) = false := by
  have hp : ¬(65 ≤ (pyLower c).toNat ∧ (pyLower c).toNat ≤ 90) := by
    rw [pyLower_toNat]
    split_ifs <;> omega
  simp only [pyIsUpperB, Bool.and_eq_false_iff, decide_eq_false_iff_not]
  tauto

theorem option_any_map (o : Option Char) (f : Char → Char)
    (hf : ∀ c, pyIsSpace (f c) = pyIsSpace c) :
    (o.map f).any pyIsSpace = o.any pyIsSpace := by
  cases o with
  | none => rfl
  | some c => simp [hf]

/-- C9: both normalisers are idempotent, and normalised text is canonical:
no leading whitespace, no trailing whitespace, no two consecutive
whitespace characters; the validator's (lowercased) variant additionally
contains no uppercase ASCII letter. -/
theorem claim_C9 : ∀ t : List Char,
    normB (normB t) = normB t ∧
    normG (normG t) = normG t ∧
    (normB t).head?.any pyIsSpace = false ∧
    (normB t).getLast?.any pyIsSpace = false ∧
    List.Chain' (fun a b => (pyIsSpace a && pyIsSpace b) = false) (normB t) ∧
    (normG t).head?.any pyIsSpace = false ∧
    (normG t).getLast?.any pyIsSpace = false ∧
    List.Chain' (fun a b => (pyIsSpace a && pyIsSpace b) = false) (normG t) ∧
    (normG t).all (fun c => !pyIsUpperB c) = true := by
  intro t
  have hgood : ∀ w ∈ pySplit t, w ≠ [] ∧ ∀ c ∈ w, pyIsSpace c = false :=
    fun w hw => pySplit_good w hw
  refine ⟨normB_idem t, normG_idem t, joinSp_no_space_head hgood,
    joinSp_no_space_last hgood, joinSp_chain hgood, ?_, ?_, ?_, ?_⟩
  · rw [normG_eq_map, List.head?_map]
    exact (option_any_map _ _ pyIsSpace_pyLower).trans (joinSp_no_space_head hgood)
  · rw [normG_eq_map, List.getLast?_map ..]
    exact (option_any_map _ _ pyIsSpace_pyLower).trans (joinSp_no_space_last hgood)
  · rw [normG_eq_map, List.chain'_map pyLower]
    have := joinSp_chain hgood
    apply List.Chain'.imp ?_ this
    intro a b hab
    rw [pyIsSpace_pyLower, pyIsSpace_pyLower]
    exact hab
  · rw [normG_eq_map, List.all_eq_true]
    intro c hc
    rcases List.mem_map.mp hc with ⟨x, -, rfl⟩
    simp [pyIsUpperB_pyLower]

/-! ## Degenerate inputs (C6) -/

theorem pySplit_of_all_space {t : List Char}
    (ht : ∀ c ∈ t, pyIsSpace c = true) : pySplit t = [] := by
  have := pySplit_all_space ht []
  simpa using this

theorem pyContains_nil_left (nd : List Char) : pyContains [] nd = true := by
  cases nd <;> simp [pyContains, pyFind, List.isPrefixOf]

/-- Counterexample to C6 as stated: a whitespace-only citation validates
true (not a negative result), and a citation longer than the document can
also validate true. -/
theorem claim_C6_counterexample :
    validate_citation (toL "   ") (toL "abc") = true ∧
      validate_citation (toL "a  a") (toL "a a") = true ∧
      (toL "a a").length < (toL "a  a").length := by decide

/-- C6 (amended): no degenerate input crashes the validator (the embedded
functions are total); a whitespace-only citation yields true — its
normalised form is the empty string, a substring of every document — rather
than a negative result; only a null document is surfaced as an error at the
call boundary, every actual string document yielding an ordinary boolean. -/
theorem claim_C6 :
    (∀ (c d : List Char), (∀ x ∈ c, pyIsSpace x = true) →
      validate_citation c d = true) ∧
    (∀ c : List Char, validate_citation_opt c none =
      Except.error "AttributeError: NoneType has no attribute split") ∧
    (∀ (c d : List Char), validate_citation_opt c (some d) =
      Except.ok (validate_citation c d)) := by
  refine ⟨?_, fun c => rfl, fun c d => rfl⟩
  intro c d hc
  unfold validate_citation
  have hn : normG c = [] := by
    unfold normG normB
    rw [pySplit_of_all_space hc]
    rfl
  rw [hn]
  exact validateOnNorm_of_contains (pyContains_nil_left _)

/-- Witness for C6. -/
theorem claim_C6_witness :
    validate_citation (toL "  ") (toL "xyz") = true ∧
      validate_citation_opt (toL "a") none =
        Except.error "AttributeError: NoneType has no attribute split" ∧
      validate_citation_opt (toL "a") (some (toL "b")) =
        Except.ok (validate_citation (toL "a") (toL "b")) :=
  ⟨claim_C6.1 (toL "  ") (toL "xyz") (by decide),
    claim_C6.2.1 (toL "a"), claim_C6.2.2 (toL "a") (toL "b")⟩

/-! ## The elided-citation search (C3, C4) -/

theorem pyFindFrom_ge {n h : List Char} {s pos : Nat}
    (hf : pyFindFrom n h s = some pos) : s ≤ pos := by
  unfold pyFindFrom at hf
  split at hf
  · rcases Option.map_eq_some'.mp hf with ⟨q, -, rfl⟩
    omega
  · exact absurd hf (by simp)

theorem findPartsPos_mono {doc : List Char} :
    ∀ (parts : List (List Char)) (start : Nat) (l : List Nat),
      findPartsPos doc start parts = some l →
        List.Chain' (· < ·) l ∧ ∀ x ∈ l, start ≤ x := by
  intro parts
  induction parts with
  | nil =>
    intro start l h
    simp only [findPartsPos] at h
    cases h
    exact ⟨by simp, by simp⟩
  | cons p ps ih =>
    intro start l h
    simp only [findPartsPos] at h
    cases hf : pyFindFrom p doc start with
    | none => rw [hf] at h; cases h
    | some pos =>
      rw [hf] at h
      rcases Option.map_eq_some'.mp h with ⟨l', hl', rfl⟩
      rcases ih (pos + 1) l' hl' with ⟨hchain, hge⟩
      refine ⟨?_, ?_⟩
      · rw [List.chain'_cons']
        refine ⟨?_, hchain⟩
        intro y hy
        cases hl'' : l' with
        | nil => rw [hl''] at hy; cases hy
        | cons z zs =>
          rw [hl''] at hy
          simp at hy
          have hz : pos + 1 ≤ z := hge z (by rw [hl'']; simp)
          omega
      · intro x hx
        have hsp := pyFindFrom_ge hf
        rcases List.mem_cons.mp hx with rfl | hx
        · exact hsp
        · have := hge x hx
          omega

/-- Counterexample to C3 as stated: in document `"abcd"` the citation
`"ab ... bc"` validates true although its two fragments are found at
positions 0 and 1 with lengths 2 and 2, i.e. with overlapping extents —
only the start positions increase strictly, overlap is not rejected. -/
theorem claim_C3_counterexample :
    validate_citation (toL "ab ... bc") (toL "abcd") = true ∧
      findPartsPos (toL "abcd") 0 [toL "ab", toL "bc"] = some [0, 1] ∧
      1 < 0 + (toL "ab").length := by decide

/-- C3 (amended): each surviving part must be found strictly after the
position where the previous part was found (first search floor 0, i.e.
`last_pos = -1`), so the found start positions are strictly increasing and
out-of-order fragments are rejected — but fragments whose extents overlap
while their start positions increase are accepted; the spec's two ordering
examples hold. -/
theorem claim_C3 :
    (∀ (doc : List Char) (parts : List (List Char)) (l : List Nat),
      findPartsPos doc 0 parts = some l → List.Chain' (· < ·) l) ∧
    validate_citation (toL "Alpha beta ... delta epsilon")
      (toL "Alpha beta gamma delta epsilon") = true ∧
    validate_citation (toL "delta epsilon ... Alpha beta")
      (toL "Alpha beta gamma delta epsilon") = false := by
  refine ⟨?_, by decide, by decide⟩
  intro doc parts l h
  exact (findPartsPos_mono parts 0 l h).1

/-- Witness for C3 at the concrete elided search of the counterexample
document. -/
theorem claim_C3_witness :
    List.Chain' (· < ·) [0, 1] :=
  claim_C3.1 (toL "abcd") [toL "ab", toL "bc"] [0, 1] (by decide)

theorem elidedLoop_false {nd nc : List Char} :
    ∀ seps : List (List Char),
      (∀ sep ∈ seps, ¬(1 < (splitOnSep sep nc).length)) →
        elidedLoop nd nc seps = false := by
  intro seps
  induction seps with
  | nil => intro _; rfl
  | cons sep rest ih =>
    intro h
    unfold elidedLoop
    rw [if_neg (h sep (by simp))]
    exact ih (fun s hs => h s (by simp [hs]))

/-- Counterexample to C4 as stated: for citation `"alpha [...] beta"` and
document `"alpha beta"`, the first recognized form (the bare three-dot
ellipsis) does split the normalised citation into two parts, those parts
fail the in-order search, and yet the citation validates true — the later
bracketed form is consulted, so the first splitting form does not alone
determine the outcome. -/
theorem claim_C4_counterexample :
    1 < (splitOnSep (toL "...") (normG (toL "alpha [...] beta"))).length ∧
      findPartsFrom (normG (toL "alpha beta")) 0
        (stripParts (splitOnSep (toL "...")
          (normG (toL "alpha [...] beta")))) = false ∧
      validate_citation (toL "alpha [...] beta") (toL "alpha beta") = true := by
  decide

/-- C4 (amended): the marker forms are tried in order as alternatives and
are not combined into one pass; a citation that no recognized form splits
into two or more parts falls through to exact-match evaluation of the whole
unmodified string; but a splitting form does not alone determine the
outcome — when its parts fail the in-order search, later forms are still
consulted (e.g. the bracketed-ellipsis form rescues `"alpha [...] beta"`). -/
theorem claim_C4 :
    (∀ (c d : List Char),
      (∀ sep ∈ elidedSeps, ¬(1 < (splitOnSep sep (normG c)).length)) →
        validate_citation c d = pyContains (normG c) (normG d)) ∧
    validate_citation (toL "alpha [...] beta") (toL "alpha beta") = true := by
  refine ⟨?_, by decide⟩
  intro c d h
  unfold validate_citation validateOnNorm
  cases hcont : pyContains (normG c) (normG d) with
  | true => simp
  | false =>
    rw [if_neg Bool.false_ne_true]
    exact elidedLoop_false elidedSeps h

/-- Witness for C4: a citation with only an unrecognized single-dot marker
falls through to the exact-match verdict. -/
theorem claim_C4_witness :
    validate_citation (toL "a . b") (toL "x") =
      pyContains (normG (toL "a . b")) (normG (toL "x")) :=
  claim_C4.1 (toL "a . b") (toL "x") (by decide)

/-! ## The highlight assembler (C1) -/

theorem pySlice_append_drop {doc : List Char} {a b : Nat}
    (hab : a ≤ b) (hb : b ≤ doc.length) :
    pySlice doc a b ++ doc.drop b = doc.drop a := by
  unfold pySlice
  conv_rhs => rw [← List.take_append_drop b doc]
  rw [List.drop_append_eq_append_drop]
  have hlen : (doc.take b).length = b := by
    rw [List.length_take]
    omega
  rw [hlen]
  have : a - b = 0 := by omega
  rw [this, List.drop_zero]

theorem assembleGo_concat (doc : List Char) :
    ∀ (l : List (Nat × Nat)) (lastPos : Nat),
      lastPos ≤ doc.length →
      (∀ h ∈ l, h.1 ≤ h.2 ∧ h.2 ≤ doc.length) →
      List.Chain' (fun a b => a.2 ≤ b.1) l →
      (match l.head? with | some h => lastPos ≤ h.1 | none => True) →
      ((assembleGo doc lastPos l).map Prod.snd).flatten = doc.drop lastPos := by
  intro l
  induction l with
  | nil =>
    intro lastPos _ _ _ _
    simp [assembleGo]
  | cons h rest ih =>
    rcases h with ⟨s, e⟩
    intro lastPos hlast hb hchain hhead
    have hse : s ≤ e ∧ e ≤ doc.length := hb (s, e) (by simp)
    have hls : lastPos ≤ s := by simpa using hhead
    rw [List.chain'_cons'] at hchain
    have hrest :
        ((assembleGo doc e rest).map Prod.snd).flatten = doc.drop e := by
      apply ih e hse.2 (fun x hx => hb x (by simp [hx])) hchain.2
      cases hr : rest.head? with
      | none => trivial
      | some y =>
        have := hchain.1 y hr
        simpa using this
    show pySlice doc lastPos s ++ (pySlice doc s e ++
      ((assembleGo doc e rest).map Prod.snd).flatten) = doc.drop lastPos
    rw [hrest, pySlice_append_drop hse.1 hse.2,
      pySlice_append_drop hls (by omega)]

theorem assembleGo_marked (doc : List Char) :
    ∀ (l : List (Nat × Nat)) (lastPos : Nat),
      ((assembleGo doc lastPos l).filter Prod.fst).map Prod.snd =
        l.map (fun h => pySlice doc h.1 h.2) := by
  intro l
  induction l with
  | nil => intro lastPos; simp [assembleGo]
  | cons h rest ih =>
    rcases h with ⟨s, e⟩
    intro lastPos
    simp [assembleGo, ih]

/-- Counterexample to C1 as stated: the assembler does not clip an
overlapping highlight — for document `"abcd"` and highlights `[0,3)` and
`[1,2)` the emitted slices concatenate to `"abcbcd"`, duplicating the
characters `b` and `c`, so the output is not a partition of the document. -/
theorem claim_C1_counterexample :
    assembleConcat (toL "abcd") [(0, 3), (1, 2)] = toL "abcbcd" ∧
      assembleConcat (toL "abcd") [(0, 3), (1, 2)] ≠ toL "abcd" := by
  decide

/-- C1 (amended): the assembler sorts the highlights ascending by start and
emits alternating unmarked and marked slices with a cursor at the previous
highlight's end; provided the sorted highlights are well-formed
(`start ≤ end ≤ len doc`) and pairwise non-overlapping (each highlight ends
at or before the next one starts), the in-order concatenation of the
emitted slices reproduces the document exactly — no character duplicated or
dropped — and the marked slices are exactly the sorted highlights' slices.
Overlapping highlights are not clipped, so for them this partition law
fails (see the counterexample). -/
theorem claim_C1 : ∀ (doc : List Char) (hs : List (Nat × Nat)),
    (∀ h ∈ hs, h.1 ≤ h.2 ∧ h.2 ≤ doc.length) →
    List.Chain' (fun a b => a.2 ≤ b.1) (sortByStart hs) →
    assembleConcat doc hs = doc ∧
      ((assembleSlices doc hs).filter Prod.fst).map Prod.snd =
        (sortByStart hs).map (fun h => pySlice doc h.1 h.2) := by
  intro doc hs hb hchain
  constructor
  · unfold assembleConcat assembleSlices
    have hbs : ∀ h ∈ sortByStart hs, h.1 ≤ h.2 ∧ h.2 ≤ doc.length := by
      intro h hh
      exact hb h ((List.perm_insertionSort _ hs).mem_iff.mp hh)
    have hgo := assembleGo_concat doc (sortByStart hs) 0 (Nat.zero_le _)
      hbs hchain (by cases (sortByStart hs).head? <;> simp)
    simpa using hgo
  · exact assembleGo_marked doc (sortByStart hs) 0

/-- Witness for C1 with unsorted, disjoint highlights. -/
theorem claim_C1_witness :
    assembleConcat (toL "abcd") [(2, 4), (0, 1)] = toL "abcd" :=
  (claim_C1 (toL "abcd") [(2, 4), (0, 1)] (by decide) (by
    have hs : sortByStart [(2, 4), (0, 1)] = [(0, 1), (2, 4)] := by rfl
    rw [hs, List.chain'_cons]
    exact ⟨by norm_num, List.chain'_singleton _⟩)).1

/-! ## HTML escaping (C10) -/

theorem pyReplaceF_single {a : Char} {new : List Char} :
    ∀ (f : Nat) (s : List Char), s.length ≤ f →
      pyReplaceF [a] new f s =
        s.flatMap (fun x => if x = a then new else [x]) := by
  intro f
  induction f with
  | zero =>
    intro s hs
    have : s = [] := List.length_eq_zero.mp (Nat.le_zero.mp hs)
    subst this
    rfl
  | succ f ih =>
    intro s hs
    cases s with
    | nil => rfl
    | cons c cs =>
      rw [show pyReplaceF [a] new (f + 1) (c :: cs) =
          if [a] ≠ [] ∧ ([a] : List Char).isPrefixOf (c :: cs) then
            new ++ pyReplaceF [a] new f ((c :: cs).drop ([a] : List Char).length)
          else c :: pyReplaceF [a] new f cs from rfl]
      by_cases hac : c = a
      · subst hac
        rw [if_pos ⟨by simp, by simp [List.isPrefixOf]⟩]
        simp only [List.length_singleton, List.drop_succ_cons, List.drop_zero]
        rw [ih cs (by simpa using hs)]
        simp [List.flatMap_cons]
      · rw [if_neg (by simp [List.isPrefixOf, hac]; intro h; exact absurd h.symm hac)]
        rw [ih cs (by simpa using hs)]
        simp [List.flatMap_cons, hac]

theorem pyReplace_single (s : List Char) (a : Char) (new : List Char) :
    pyReplace s [a] new = s.flatMap (fun x => if x = a then new else [x]) :=
  pyReplaceF_single s.length s (Nat.le_refl _)

theorem escape_html_eq_flatMap (t : List Char) :
    escape_html t = t.flatMap encHtml := by
  unfold escape_html
  rw [pyReplace_single, pyReplace_single, pyReplace_single, pyReplace_single,
    pyReplace_single]
  rw [List.flatMap_assoc, List.flatMap_assoc, List.flatMap_assoc,
    List.flatMap_assoc]
  have hfun : ∀ c : Char,
      ((if c = '&' then toL "&amp;" else [c]).flatMap fun x =>
        (if x = '<' then toL "&lt;" else [x]).flatMap fun x =>
          (if x = '>' then toL "&gt;" else [x]).flatMap fun x =>
            (if x = '"' then toL "&quot;" else [x]).flatMap fun x =>
              if x = '\'' then toL "&#39;" else [x]) = encHtml c := by
    intro c
    by_cases h1 : c = '&'
    · subst h1; decide
    · by_cases h2 : c = '<'
      · subst h2; decide
      · by_cases h3 : c = '>'
        · subst h3; decide
        · by_cases h4 : c = '"'
          · subst h4; decide
          · by_cases h5 : c = '\''
            · subst h5; decide
            · simp [h1, h2, h3, h4, h5, encHtml]
  exact List.flatMap_congr (fun c _ => hfun c)

theorem encHtml_ne_nil (x : Char) : encHtml x ≠ [] := by
  unfold encHtml
  split_ifs <;> simp

theorem encHtml_plain {x : Char} (h1 : x ≠ '&') (h2 : x ≠ '<') (h3 : x ≠ '>')
    (h4 : x ≠ '"') (h5 : x ≠ '\'') : encHtml x = [x] := by
  simp [encHtml, h1, h2, h3, h4, h5]

theorem encHtml_special_len {x : Char}
    (hx : x = '&' ∨ x = '<' ∨ x = '>' ∨ x = '"' ∨ x = '\'') :
    2 ≤ (encHtml x).length := by
  rcases hx with rfl | rfl | rfl | rfl | rfl <;> decide

theorem encHtml_special_head {x : Char}
    (hx : x = '&' ∨ x = '<' ∨ x = '>' ∨ x = '"' ∨ x = '\'') :
    (encHtml x)[0]? = some '&' := by
  rcases hx with rfl | rfl | rfl | rfl | rfl <;> decide

theorem encHtml_at1_inj {x y : Char}
    (hx : x = '&' ∨ x = '<' ∨ x = '>' ∨ x = '"' ∨ x = '\'')
    (hy : y = '&' ∨ y = '<' ∨ y = '>' ∨ y = '"' ∨ y = '\'')
    (h : (encHtml x)[1]? = (encHtml y)[1]?) : x = y := by
  rcases hx with rfl | rfl | rfl | rfl | rfl <;>
    rcases hy with rfl | rfl | rfl | rfl | rfl <;>
      first
      | rfl
      | exact absurd h (by decide)

theorem encHtml_append_inj {a b : Char} {X Y : List Char}
    (h : encHtml a ++ X = encHtml b ++ Y) : a = b := by
  by_cases hsa : a = '&' ∨ a = '<' ∨ a = '>' ∨ a = '"' ∨ a = '\''
  · by_cases hsb : b = '&' ∨ b = '<' ∨ b = '>' ∨ b = '"' ∨ b = '\''
    · have h2 := congrArg (fun l => l[1]?) h
      simp only at h2
      rw [List.getElem?_append_left (by have := encHtml_special_len hsa; omega),
        List.getElem?_append_left (by have := encHtml_special_len hsb; omega)] at h2
      exact encHtml_at1_inj hsa hsb h2
    · exfalso
      push_neg at hsb
      have hb := encHtml_plain hsb.1 hsb.2.1 hsb.2.2.1 hsb.2.2.2.1 hsb.2.2.2.2
      rw [hb] at h
      have h0 := congrArg (fun l => l[0]?) h
      simp only at h0
      rw [List.getElem?_append_left (by have := encHtml_special_len hsa; omega),
        encHtml_special_head hsa,
        show ([b] ++ Y)[0]? = some b by simp] at h0
      simp at h0
      exact hsb.1 h0.symm
  · by_cases hsb : b = '&' ∨ b = '<' ∨ b = '>' ∨ b = '"' ∨ b = '\''
    · exfalso
      push_neg at hsa
      have ha := encHtml_plain hsa.1 hsa.2.1 hsa.2.2.1 hsa.2.2.2.1 hsa.2.2.2.2
      rw [ha] at h
      have h0 := congrArg (fun l => l[0]?) h
      simp only at h0
      rw [show ([a] ++ X)[0]? = some a by simp,
        List.getElem?_append_left (by have := encHtml_special_len hsb; omega),
        encHtml_special_head hsb] at h0
      simp at h0
      exact hsa.1 h0
    · push_neg at hsa hsb
      have ha := encHtml_plain hsa.1 hsa.2.1 hsa.2.2.1 hsa.2.2.2.1 hsa.2.2.2.2
      have hb := encHtml_plain hsb.1 hsb.2.1 hsb.2.2.1 hsb.2.2.2.1 hsb.2.2.2.2
      rw [ha, hb] at h
      have := congrArg (fun l => l[0]?) h
      simpa using this

theorem encHtml_flatMap_inj :
    ∀ s t : List Char, s.flatMap encHtml = t.flatMap encHtml → s = t := by
  intro s
  induction s with
  | nil =>
    intro t h
    cases t with
    | nil => rfl
    | cons b ts =>
      exfalso
      rw [List.flatMap_cons] at h
      rcases List.append_eq_nil.mp h.symm with ⟨hnil, -⟩
      exact encHtml_ne_nil b hnil
  | cons a as ih =>
    intro t h
    cases t with
    | nil =>
      exfalso
      rw [List.flatMap_cons] at h
      rcases List.append_eq_nil.mp h with ⟨hnil, -⟩
      exact encHtml_ne_nil a hnil
    | cons b ts =>
      rw [List.flatMap_cons, List.flatMap_cons] at h
      have hab := encHtml_append_inj h
      subst hab
      have htail := List.append_cancel_left h
      rw [ih ts htail]

theorem encHtml_ok (x : Char) :
    (encHtml x).all
      (fun c => !(c = '<' || c = '>' || c = '"' || c = '\'')) = true := by
  by_cases h1 : x = '&'
  · subst h1; decide
  · by_cases h2 : x = '<'
    · subst h2; decide
    · by_cases h3 : x = '>'
      · subst h3; decide
      · by_cases h4 : x = '"'
        · subst h4; decide
        · by_cases h5 : x = '\''
          · subst h5; decide
          · rw [encHtml_plain h1 h2 h3 h4 h5]
            simp [h2, h3, h4, h5]

/-- C10: HTML escaping leaves no raw `<`, `>`, `"` or `'` in its output
(each special character is replaced by its entity, `&` first, so produced
entities are never re-escaped — the chain acts as one characterwise
encoding), and the escaping is injective, so distinct texts never collide. -/
theorem claim_C10 :
    (∀ t : List Char, (escape_html t).all
      (fun c => !(c = '<' || c = '>' || c = '"' || c = '\'')) = true) ∧
    (∀ s t : List Char, escape_html s = escape_html t → s = t) := by
  constructor
  · intro t
    rw [escape_html_eq_flatMap, List.all_eq_true]
    intro c hc
    rcases List.mem_flatMap.mp hc with ⟨x, -, hcx⟩
    have hok := encHtml_ok x
    rw [List.all_eq_true] at hok
    exact hok c hcx
  · intro s t h
    rw [escape_html_eq_flatMap, escape_html_eq_flatMap] at h
    exact encHtml_flatMap_inj s t h

/-- Witness for C10. -/
theorem claim_C10_witness :
    (escape_html (toL "<a&'d\">")).all
      (fun c => !(c = '<' || c = '>' || c = '"' || c = '\'')) = true ∧
      toL "ab" = toL "ab" :=
  ⟨claim_C10.1 (toL "<a&'d\">"), claim_C10.2 (toL "ab") (toL "ab") rfl⟩

/-! ## The Tier-3 fallback (C5) -/

theorem locateSpan_of_t1_t2_fail {doc cit : List Char}
    (h1 : pyFind cit doc = none) (h2 : tier2 cit doc = none) :
    locateSpan doc cit = tier3 doc cit := by
  unfold locateSpan
  rw [h1, h2]

theorem tier3_isSome_iff (doc cit : List Char) :
    (∃ s e, tier3 doc cit = some (s, e)) ↔
      (normB cit ≠ [] ∧ (pyFind (normB cit) (normB doc)).isSome = true) := by
  unfold tier3
  by_cases hnc : normB cit = []
  · simp [hnc]
  · rw [if_neg hnc]
    cases hf : pyFind (normB cit) (normB doc) with
    | none => simp [hnc]
    | some normPos => simp [hnc]

/-- Counterexample to C5 as stated: for document `"AB"` and citation
`"ab"`, Tiers 1 and 2 fail, and the whitespace-collapsed-and-lowercased
citation is a substring of the likewise-normalised document — so the
claimed case-tolerant Tier 3 would assign a span — yet the code reports the
citation unhighlightable, because the backend normaliser does not
lowercase. -/
theorem claim_C5_counterexample :
    pyFind (toL "ab") (toL "AB") = none ∧
      tier2 (toL "ab") (toL "AB") = none ∧
      pyContains (normG (toL "ab")) (normG (toL "AB")) = true ∧
      locateSpan (toL "AB") (toL "ab") = none := by decide

/-- C5 (amended): when Tiers 1 and 2 fail, Tier 3 locates the
whitespace-collapsed citation inside the whitespace-collapsed document
case-sensitively (the backend normaliser collapses whitespace but does not
lowercase); the citation is assigned a span by the word-count alignment
exactly when the collapsed citation is non-empty and that lookup succeeds,
and is otherwise left unhighlighted. -/
theorem claim_C5 : ∀ (doc cit : List Char),
    pyFind cit doc = none → tier2 cit doc = none →
    ((∃ s e, locateSpan doc cit = some (s, e)) ↔
      (normB cit ≠ [] ∧ (pyFind (normB cit) (normB doc)).isSome = true)) := by
  intro doc cit h1 h2
  rw [locateSpan_of_t1_t2_fail h1 h2]
  exact tier3_isSome_iff doc cit

/-- Witness for C5: more whitespace in the citation than in the document
defeats Tiers 1 and 2 but Tier 3 assigns a span. -/
theorem claim_C5_witness :
    ∃ s e, locateSpan (toL "a b") (toL "a  b") = some (s, e) :=
  (claim_C5 (toL "a b") (toL "a  b") (by decide) (by decide)).mpr
    ⟨by decide, by decide⟩

/-! ## Tier-2 matching over words and gaps (C8) -/

theorem tokens_word {w : List Char} (hw : ∀ c ∈ w, pyIsSpace c = false) :
    tokens w = w.map Tok.lit := by
  unfold tokens
  induction w with
  | nil => rfl
  | cons c cs ih =>
    rw [List.map_cons, List.map_cons, if_neg (by simp [hw c (by simp)]),
      ih (fun x hx => hw x (by simp [hx]))]

theorem tokens_gap {g : List Char} (hg : ∀ c ∈ g, pyIsSpace c = true) :
    tokens g = g.map (fun _ => Tok.wsPlus) := by
  unfold tokens
  induction g with
  | nil => rfl
  | cons c cs ih =>
    rw [List.map_cons, List.map_cons, if_pos (hg c (by simp)),
      ih (fun x hx => hg x (by simp [hx]))]

theorem matchToks_lit_block {w : List Char}
    (hw : ∀ c ∈ w, pyIsSpace c = false) :
    ∀ (ts : List Tok) (s : List Char),
      matchToks (w.map Tok.lit ++ ts) (w ++ s) =
        (matchToks ts s).map (· + w.length) := by
  induction w with
  | nil =>
    intro ts s
    simp only [List.map_nil, List.nil_append, List.length_nil]
    cases matchToks ts s <;> simp
  | cons c cs ih =>
    intro ts s
    rw [List.map_cons, List.cons_append, List.cons_append,
      show matchToks (Tok.lit c :: (cs.map Tok.lit ++ ts)) (c :: (cs ++ s)) =
        if c = c then (matchToks (cs.map Tok.lit ++ ts) (cs ++ s)).map (· + 1)
        else none from rfl,
      if_pos rfl, ih (fun x hx => hw x (by simp [hx])) ts s]
    cases matchToks ts s with
    | none => rfl
    | some n => simp [Nat.add_assoc]

theorem takeWhile_all_append {p : Char → Bool} {u z : List Char}
    (hu : ∀ c ∈ u, p c = true) (hz : ∀ c, z.head? = some c → p c = false) :
    (u ++ z).takeWhile p = u := by
  cases z with
  | nil =>
    rw [List.append_nil]
    exact List.takeWhile_eq_self_iff.mpr (fun x hx => hu x hx)
  | cons y ys => exact takeWhile_sat_append hu (hz y rfl) ys

/-- A group of `k` consecutive one-or-more-whitespace atoms followed by a
non-`\s+` token consumes exactly the whole whitespace run in front of it,
provided the run is at least `k` long. -/
theorem matchToks_gap_block :
    ∀ (gC gE : List Char) (ts : List Tok) (z : List Char),
      (∀ c ∈ gE, pyIsSpace c = true) →
      gC ≠ [] → gC.length ≤ gE.length →
      (∀ t, ts.head? = some t → t.isWs = false) →
      (∀ c, z.head? = some c → pyIsSpace c = false) →
      matchToks (gC.map (fun _ => Tok.wsPlus) ++ ts) (gE ++ z) =
        (matchToks ts z).map (· + gE.length) := by
  intro gC
  induction gC with
  | nil => intro gE ts z _ hne; exact absurd rfl hne
  | cons x gC' ih =>
    intro gE ts z hgE _ hlen hts hz
    cases gE with
    | nil => simp at hlen
    | cons e gE' =>
      have he : pyIsSpace e = true := hgE e (by simp)
      cases gC' with
      | nil =>
        have harm : matchToks (Tok.wsPlus :: ts) (e :: (gE' ++ z)) =
            (matchToks ts ((e :: (gE' ++ z)).drop
              (1 + ((gE' ++ z).takeWhile pyIsSpace).length))).map
              (· + (1 + ((gE' ++ z).takeWhile pyIsSpace).length)) := by
          cases ts with
          | nil => simp [matchToks, he]
          | cons t ts' =>
            cases t with
            | lit c => simp [matchToks, he]
            | wsPlus => exact absurd (hts Tok.wsPlus rfl) (by simp [Tok.isWs])
        simp only [List.map_cons, List.map_nil, List.nil_append,
          List.cons_append]
        rw [harm]
        rw [takeWhile_all_append (fun c hc => hgE c (by simp [hc])) hz]
        rw [Nat.add_comm 1 gE'.length, List.drop_succ_cons,
          List.drop_left gE' z]
        simp [List.length_cons]
      | cons x' gC'' =>
        cases gE' with
        | nil => simp at hlen
        | cons e' gE'' =>
          have harm : matchToks (Tok.wsPlus :: (Tok.wsPlus ::
              ((gC''.map (fun _ => Tok.wsPlus)) ++ ts)))
              (e :: ((e' :: gE'') ++ z)) =
              (matchToks (Tok.wsPlus :: ((gC''.map (fun _ => Tok.wsPlus)) ++ ts))
                ((e' :: gE'') ++ z)).map (· + 1) := by
            simp [matchToks, he]
          simp only [List.map_cons, List.cons_append] at harm ⊢
          rw [harm]
          have ihy := ih (e' :: gE'') ts z
            (fun c hc => hgE c (by simp at hc; simp [hc]))
            (by simp) (by simp at hlen ⊢; omega) hts hz
          simp only [List.map_cons, List.cons_append] at ihy
          rw [ihy]
          cases matchToks ts z with
          | none => rfl
          | some n => simp [Nat.add_assoc]

theorem buildW_nil (w0 : List Char) : buildW w0 [] = w0 := by
  simp [buildW]

theorem buildW_cons (w0 g w : List Char) (ps : List (List Char × List Char)) :
    buildW w0 ((g, w) :: ps) = w0 ++ g ++ buildW w ps := by
  unfold buildW
  simp [List.append_assoc]

theorem buildW_head {w0 : List Char} (hw0 : goodWord w0)
    (ps : List (List Char × List Char)) :
    ∃ c cs, buildW w0 ps = c :: cs ∧ pyIsSpace c = false := by
  obtain ⟨hne, hch⟩ := hw0
  cases w0 with
  | nil => exact absurd rfl hne
  | cons c cs0 =>
    refine ⟨c, cs0 ++ (ps.map fun p => p.1 ++ p.2).flatten, ?_, hch c (by simp)⟩
    simp [buildW]

theorem tokens_head_lit {b : List Char} {c : Char} {cs : List Char}
    (hb : b = c :: cs) (hc : pyIsSpace c = false) :
    ∀ t, (tokens b).head? = some t → t.isWs = false := by
  subst hb
  intro t ht
  unfold tokens at ht
  rw [List.map_cons, List.head?_cons, Option.some.injEq] at ht
  rw [if_neg (by simp [hc])] at ht
  rw [← ht]
  rfl

theorem pySplit_buildW : ∀ (ps : List (List Char × List Char)) (w0 : List Char),
    goodWord w0 → (∀ p ∈ ps, goodGap p.1 ∧ goodWord p.2) →
    pySplit (buildW w0 ps) = w0 :: ps.map (·.2) := by
  intro ps
  induction ps with
  | nil =>
    intro w0 hw0 _
    rw [buildW_nil]
    exact pySplit_single hw0.1 hw0.2
  | cons p ps ih =>
    obtain ⟨g, w⟩ := p
    intro w0 hw0 hps
    have hp := hps (g, w) (by simp)
    rw [buildW_cons]
    obtain ⟨hw0ne, hw0ch⟩ := hw0
    cases hww : w0 with
    | nil => exact absurd hww hw0ne
    | cons c cs0 =>
      subst hww
      obtain ⟨gh, g', hg⟩ : ∃ gh g', g = gh :: g' := by
        cases g with
        | nil => exact absurd rfl hp.1.1
        | cons gh g' => exact ⟨gh, g', rfl⟩
      have hshape : (c :: cs0) ++ g ++ buildW w ps =
          c :: (cs0 ++ (gh :: (g' ++ buildW w ps))) := by
        rw [hg]
        simp
      rw [hshape, pySplit_cons_word _ c (hw0ch c (by simp))]
      have hsat : ∀ x ∈ cs0, (fun x => !pyIsSpace x) x = true :=
        fun x hx => by simp [hw0ch x (by simp [hx])]
      have hgh : (fun x => !pyIsSpace x) gh = false := by
        simp [hp.1.2 gh (by rw [hg]; simp)]
      rw [takeWhile_sat_append hsat hgh, dropWhile_sat_append hsat hgh]
      have hgsp : ∀ x ∈ gh :: g', pyIsSpace x = true := by
        intro x hx
        exact hp.1.2 x (by rw [hg]; exact hx)
      rw [show gh :: (g' ++ buildW w ps) = (gh :: g') ++ buildW w ps from rfl,
        pySplit_all_space hgsp]
      rw [ih w hp.2 (fun q hq => hps q (by simp [hq]))]
      simp

theorem matchToks_build :
    ∀ (ps : List (List Char × List Char × List Char)) (w0 : List Char),
      goodWord w0 →
      (∀ p ∈ ps, goodGap p.1 ∧ goodGap p.2.1 ∧
        p.2.1.length ≤ p.1.length ∧ goodWord p.2.2) →
      ∀ rest : List Char,
        matchToks (tokens (buildW w0 (ps.map fun p => (p.2.1, p.2.2))))
          (buildW w0 (ps.map fun p => (p.1, p.2.2)) ++ rest) =
          some (buildW w0 (ps.map fun p => (p.1, p.2.2))).length := by
  intro ps
  induction ps with
  | nil =>
    intro w0 hw0 _ rest
    rw [List.map_nil, List.map_nil, buildW_nil]
    rw [tokens_word hw0.2]
    have := matchToks_lit_block hw0.2 [] rest
    simp only [List.append_nil] at this
    rw [this]
    simp [matchToks]
  | cons p ps ih =>
    obtain ⟨gE, gC, w⟩ := p
    intro w0 hw0 hps rest
    have hp := hps (gE, gC, w) (by simp)
    rw [List.map_cons, List.map_cons, buildW_cons, buildW_cons]
    set bC := buildW w (ps.map fun p => (p.2.1, p.2.2)) with hbC
    set bE := buildW w (ps.map fun p => (p.1, p.2.2)) with hbE
    have htok : tokens (w0 ++ gC ++ bC) =
        w0.map Tok.lit ++ (gC.map (fun _ => Tok.wsPlus) ++ tokens bC) := by
      unfold tokens
      rw [← tokens_word hw0.2, ← tokens_gap hp.2.1.2]
      unfold tokens
      simp [List.map_append, List.append_assoc]
    rw [htok]
    have hdoc : w0 ++ gE ++ bE ++ rest = w0 ++ (gE ++ (bE ++ rest)) := by
      simp [List.append_assoc]
    rw [hdoc, matchToks_lit_block hw0.2]
    obtain ⟨hc, hcs, hbEhead, hbEc⟩ : ∃ c cs, bE = c :: cs ∧ pyIsSpace c = false := by
      rcases buildW_head hp.2.2.2 (ps.map fun p => (p.1, p.2.2)) with ⟨c, cs, h1, h2⟩
      exact ⟨c, cs, h1, h2⟩
    obtain ⟨hc', hcs', hbChead, hbCc⟩ : ∃ c cs, bC = c :: cs ∧ pyIsSpace c = false := by
      rcases buildW_head hp.2.2.2 (ps.map fun p => (p.2.1, p.2.2)) with ⟨c, cs, h1, h2⟩
      exact ⟨c, cs, h1, h2⟩
    rw [matchToks_gap_block gC gE (tokens bC) (bE ++ rest)
      hp.1.2 hp.2.1.1 hp.2.2.1
      (tokens_head_lit hbChead hbCc)
      (by
        intro c hc2
        rw [hbEhead] at hc2
        simp at hc2
        rw [← hc2]
        exact hbEc)]
    rw [ih w hp.2.2.2 (fun q hq => hps q (by simp [hq])) rest]
    simp [Nat.add_comm, Nat.add_assoc, Nat.add_left_comm]

theorem tier2Aux_finds {toks : List Tok} :
    ∀ (n : Nat) (s : List Char) (p m : Nat),
      (∀ q, q < n → matchToks toks (s.drop q) = none) →
      matchToks toks (s.drop n) = some m →
      tier2Aux toks s p = some (p + n, p + n + m) := by
  intro n
  induction n with
  | zero =>
    intro s p m _ hm
    rw [List.drop_zero] at hm
    cases s with
    | nil => simp [tier2Aux, hm]
    | cons c cs => simp [tier2Aux, hm]
  | succ n ih =>
    intro s p m hnone hm
    have h0 : matchToks toks s = none := by
      have := hnone 0 (by omega)
      simpa using this
    cases s with
    | nil =>
      rw [List.drop_nil] at hm
      rw [h0] at hm
      exact Option.noConfusion hm
    | cons c cs =>
      have hrec := ih cs (p + 1) m
        (fun q hq => by
          have := hnone (q + 1) (by omega)
          simpa using this)
        (by simpa using hm)
      simp only [tier2Aux, h0]
      rw [hrec]
      congr 2 <;> omega

/-- Counterexample to C8 as stated: the collapsed citation can occur
verbatim elsewhere in the document, in which case Tier 1 succeeds instead
of failing — document `"a b a  b"` contains the excerpt `"a  b"`, whose
double space collapses to the citation `"a b"`, yet `find` locates the
citation at offset 0. -/
theorem claim_C8_counterexample :
    toL "a b a  b" = toL "a b " ++ toL "a  b" ++ [] ∧
      pyReplace (toL "a  b") (toL "  ") (toL " ") = toL "a b" ∧
      pyFind (toL "a b") (toL "a b a  b") = some 0 := by decide

/-- C8 (amended): take a document `pre ++ ex ++ post` whose excerpt `ex`
and citation `cit` consist of the same words, every internal whitespace gap
of `cit` being non-empty and at most as long as the corresponding gap of
`ex` (this covers both collapsing double spaces to single spaces and
replacing single spaces by newlines).  Then the citation always validates
true; Tier 1 fails provided the citation does not itself occur verbatim in
the document; the Tier-2 whitespace-flexible pattern matches the excerpt
exactly, consuming precisely `ex`; and if no flexible match starts before
the excerpt, Tier 2 — and hence the locator — returns exactly the
excerpt's span `[len pre, len pre + len ex)`. -/
theorem claim_C8 :
    ∀ (pre post w0 : List Char)
      (ps : List (List Char × List Char × List Char)),
      goodWord w0 →
      (∀ p ∈ ps, goodGap p.1 ∧ goodGap p.2.1 ∧
        p.2.1.length ≤ p.1.length ∧ goodWord p.2.2) →
      ∀ doc ex cit : List Char,
        ex = buildW w0 (ps.map fun p => (p.1, p.2.2)) →
        cit = buildW w0 (ps.map fun p => (p.2.1, p.2.2)) →
        doc = pre ++ ex ++ post →
        validate_citation cit doc = true ∧
        (¬(cit <:+: doc) → pyFind cit doc = none) ∧
        matchToks (tokens cit) (ex ++ post) = some ex.length ∧
        ((∀ q, q < pre.length → matchToks (tokens cit) (doc.drop q) = none) →
          tier2 cit doc = some (pre.length, pre.length + ex.length)) ∧
        (¬(cit <:+: doc) →
          (∀ q, q < pre.length → matchToks (tokens cit) (doc.drop q) = none) →
          locateSpan doc cit = some (pre.length, pre.length + ex.length)) := by
  intro pre post w0 ps hw0 hps doc ex cit hex hcit hdoc
  have hgoodE : ∀ p ∈ (ps.map fun p => (p.1, p.2.2)), goodGap p.1 ∧ goodWord p.2 := by
    intro p hp
    rcases List.mem_map.mp hp with ⟨q, hq, rfl⟩
    exact ⟨(hps q hq).1, (hps q hq).2.2.2⟩
  have hgoodC : ∀ p ∈ (ps.map fun p => (p.2.1, p.2.2)), goodGap p.1 ∧ goodWord p.2 := by
    intro p hp
    rcases List.mem_map.mp hp with ⟨q, hq, rfl⟩
    exact ⟨(hps q hq).2.1, (hps q hq).2.2.2⟩
  have hnormeq : normG cit = normG ex := by
    unfold normG normB
    rw [hex, hcit, pySplit_buildW _ w0 hw0 hgoodC, pySplit_buildW _ w0 hw0 hgoodE,
      List.map_map, List.map_map]
    rfl
  have hvalid : validate_citation cit doc = true := by
    unfold validate_citation
    apply validateOnNorm_of_contains
    apply pyContains_eq_true_iff.mpr
    rw [hnormeq]
    apply normG_infix_mono
    exact ⟨pre, post, hdoc.symm⟩
  have hmatch : matchToks (tokens cit) (ex ++ post) = some ex.length := by
    rw [hex, hcit]
    exact matchToks_build ps w0 hw0 hps post
  have htier2 : (∀ q, q < pre.length → matchToks (tokens cit) (doc.drop q) = none) →
      tier2 cit doc = some (pre.length, pre.length + ex.length) := by
    intro hleft
    unfold tier2
    have hdrop : doc.drop pre.length = ex ++ post := by
      rw [hdoc, List.append_assoc]
      exact List.drop_left pre (ex ++ post)
    have := tier2Aux_finds pre.length doc 0 ex.length hleft
      (by rw [hdrop]; exact hmatch)
    simpa using this
  refine ⟨hvalid, fun hni => pyFind_eq_none_of_not_infix hni, hmatch, htier2, ?_⟩
  intro hni hleft
  have h1 := pyFind_eq_none_of_not_infix hni
  have h2 := htier2 hleft
  unfold locateSpan
  rw [h1, h2]

/-- Witness for C8: document `"X a  b"`, excerpt `"a  b"`, citation
`"a b"`. -/
theorem claim_C8_witness :
    validate_citation (toL "a b") (toL "X a  b") = true ∧
      locateSpan (toL "X a  b") (toL "a b") = some (2, 6) := by
  have h := claim_C8 (toL "X ") [] (toL "a") [(toL "  ", toL " ", toL "b")]
    (by decide) (by decide) (toL "X a  b") (toL "a  b") (toL "a b")
    (by decide) (by decide) (by decide)
  refine ⟨h.1, ?_⟩
  have h5 := h.2.2.2.2 (by decide) (by decide)
  simpa using h5
